import Mathlib

set_option maxRecDepth 20000

/-!
Shallow embedding of the `parser` repository (src/crawler.cjs and
src/lib/structure-detect.cjs) and proofs about its specification claims.

Modelling conventions:
* JavaScript strings are Lean `String`s; character-level work is done on
  `List Char`.
* The WHATWG `URL` platform builtin (not repository code) is modelled by
  `parseAbs` / `resolveURL` / `serializeURL` below: a simplified parser for
  `scheme://host[:port]path[?query][#fragment]` URLs.  Percent-encoding,
  dot-segment removal, default-port elision and backslash handling are not
  modelled; the parser preserves character case and all case-insensitive
  comparisons of the source (`toLowerCase`, `/i` regexes) are modelled
  explicitly via `lcVal`, exactly where the source performs them.
* Regular-expression tests from the source are modelled as the string
  predicates they denote (substring / suffix tests), and the configurable
  ALLOW/DENY/PREFER regexes are modelled as abstract `String → Bool`
  predicates, since they are configuration inputs.
* The Playwright renderer is an external capability (spec section 6); it is
  modelled as a function argument.  A rendering failure is `none` (crawler)
  or an all-empty result (planner's `loadPageExtract`, whose catch block
  yields empty lists).
-/

/-! ### Character-level helpers -/

/-- Lower-cased code of a character, as used by JavaScript `toLowerCase` and
`/i` regex flags on ASCII input: `A`–`Z` map to `a`–`z`. -/
def lcVal (c : Char) : Nat :=
  if 65 ≤ c.toNat ∧ c.toNat ≤ 90 then c.toNat + 32 else c.toNat

/-- Lower-cased character codes of a list. -/
def lcList (l : List Char) : List Nat := l.map lcVal

/-- Case-insensitive equality of character lists. -/
def ciEq (a b : List Char) : Bool := lcList a == lcList b

/-- `pat` begins `s` (case-sensitive). -/
def listStarts : List Char → List Char → Bool
  | [], _ => true
  | _ :: _, [] => false
  | p :: ps, c :: cs => p == c && listStarts ps cs

/-- `pat` begins `s` up to ASCII case. -/
def ciStarts : List Char → List Char → Bool
  | [], _ => true
  | _ :: _, [] => false
  | p :: ps, c :: cs => lcVal p == lcVal c && ciStarts ps cs

/-- `pat` occurs somewhere in `s` (case-insensitive substring test, the
meaning of an unanchored `/i` regex over a literal). -/
def containsSubCI (pat : List Char) : List Char → Bool
  | [] => ciStarts pat []
  | c :: cs => ciStarts pat (c :: cs) || containsSubCI pat cs

/-- Case-insensitive substring test on strings. -/
def containsCI (pat s : String) : Bool := containsSubCI pat.data s.data

/-- `pat` ends `s` (case-sensitive). -/
def listEndsC (pat s : List Char) : Bool :=
  decide (pat.length ≤ s.length) && (s.drop (s.length - pat.length) == pat)

/-- `pat` ends `s` up to ASCII case. -/
def ciEnds (pat s : List Char) : Bool :=
  decide (pat.length ≤ s.length) && (lcList (s.drop (s.length - pat.length)) == lcList pat)

/-- Split off the longest prefix avoiding all characters in `stops`. -/
def takeUntil (stops : List Char) : List Char → List Char × List Char
  | [] => ([], [])
  | c :: rest =>
    if stops.contains c then ([], c :: rest)
    else
      let r := takeUntil stops rest
      (c :: r.1, r.2)

/-- Split a character list on a separator character. -/
def splitOnCharAux (sep : Char) : List Char → List Char → List (List Char)
  | [], acc => [acc.reverse]
  | c :: cs, acc =>
    if c == sep then acc.reverse :: splitOnCharAux sep cs []
    else splitOnCharAux sep cs (c :: acc)

def splitOnChar (sep : Char) (l : List Char) : List (List Char) :=
  splitOnCharAux sep l []

/-- Replace the first (case-insensitive) occurrence of `pat` by `repl`,
modelling JavaScript `String.prototype.replace` with an `/i` regex of a
literal pattern. -/
def ciReplaceFirst (pat repl : List Char) : List Char → List Char
  | [] => []
  | c :: cs =>
    if ciStarts pat (c :: cs) then repl ++ (c :: cs).drop pat.length
    else c :: ciReplaceFirst pat repl cs

/-- Replace the first (case-sensitive) occurrence of `pat` by `repl`,
modelling `String.prototype.replace` with a plain string pattern. -/
def csReplaceFirst (pat repl : List Char) : List Char → List Char
  | [] => []
  | c :: cs =>
    if listStarts pat (c :: cs) then repl ++ (c :: cs).drop pat.length
    else c :: ciReplaceFirst pat repl cs

/-- Lexicographic order on character lists by code point; this models
JavaScript's default `Array.prototype.sort()` comparison on strings, and is
also used for the deterministic-mode `localeCompare` tie-break (which agrees
with it on the lower-case ASCII URLs this development evaluates). -/
def listLexLe : List Char → List Char → Bool
  | [], _ => true
  | _ :: _, [] => false
  | a :: as, b :: bs =>
    if a.toNat < b.toNat then true
    else if b.toNat < a.toNat then false
    else listLexLe as bs

def strLe (a b : String) : Bool := listLexLe a.data b.data

/-- Insert into a `le`-sorted list (stable, as modern `Array.sort` is). -/
def insertSorted (le : α → α → Bool) (x : α) : List α → List α
  | [] => [x]
  | y :: ys => if le x y then x :: y :: ys else y :: insertSorted le x ys

/-- Insertion sort; a deterministic total sort by `le`. -/
def isort (le : α → α → Bool) : List α → List α
  | [] => []
  | x :: xs => insertSorted le x (isort le xs)

/-- Sort strings lexicographically (JS `Array.prototype.sort()`). -/
def sortStr (l : List String) : List String := isort strLe l

/-- First-occurrence deduplication, the order produced by
`Array.from(new Set(xs))`. -/
def dedupFirstAux (seen : List String) : List String → List String
  | [] => []
  | x :: xs =>
    if seen.contains x then dedupFirstAux seen xs
    else x :: dedupFirstAux (x :: seen) xs

def dedupFirst (l : List String) : List String := dedupFirstAux [] l

/-- Association-list lookup modelling `Map.prototype.get`. -/
def mlookup (m : List (String × α)) (k : String) : Option α :=
  (m.find? (fun kv => kv.1 == k)).map (·.2)

/-- Association-list update modelling `Map.prototype.set`. -/
def mset : List (String × α) → String → α → List (String × α)
  | [], k, v => [(k, v)]
  | kv :: rest, k, v => if kv.1 == k then (k, v) :: rest else kv :: mset rest k v

/-! ### URL model (WHATWG `URL` platform builtin, simplified) -/

structure JSURL where
  scheme : String
  host : String
  /-- Either empty or `":…"`. -/
  port : String
  /-- Always nonempty, beginning with `/` for parsed URLs. -/
  path : String
  /-- Either empty or beginning with `?`. -/
  search : String
  /-- Either empty or beginning with `#`. -/
  hash : String
deriving DecidableEq

def isSchemeChar (c : Char) : Bool :=
  c.isAlpha || c.isDigit || c == '+' || c == '-' || c == '.'

/-- Parse an absolute `scheme://…` URL.  Returns `none` where `new URL(raw)`
would throw (and also for the non-authority schemes such as `mailto:`, which
the sources reject right afterwards via their http(s) scheme checks). -/
def parseAbs (s : String) : Option JSURL :=
  let p1 := takeUntil [':'] s.data
  match p1.2 with
  | ':' :: '/' :: '/' :: rest2 =>
    if p1.1 = [] then none
    else if ¬ (p1.1.headI.isAlpha) then none
    else if ¬ (p1.1.all isSchemeChar) then none
    else
      let p2 := takeUntil ['/', '?', '#'] rest2
      if p2.1 = [] then none
      else
        let p3 := takeUntil [':'] p2.1
        if p3.1 = [] then none
        else
          let p4 := takeUntil ['?', '#'] p2.2
          let p5 := takeUntil ['#'] p4.2
          some {
            scheme := String.mk p1.1,
            host := String.mk p3.1,
            port := String.mk p3.2,
            path := if p4.1 = [] then "/" else String.mk p4.1,
            search := String.mk p5.1,
            hash := String.mk p5.2 }
  | _ => none

def serializeURL (u : JSURL) : String :=
  u.scheme ++ "://" ++ u.host ++ u.port ++ u.path ++ u.search ++ u.hash

/-- Split a path-query-fragment tail. -/
def splitPQF (l : List Char) : List Char × List Char × List Char :=
  let p := takeUntil ['?', '#'] l
  let q := takeUntil ['#'] p.2
  (p.1, q.1, q.2)

/-- Base directory of a path: everything through the last `/`. -/
def dirOf (path : List Char) : List Char :=
  ((path.reverse).dropWhile (fun c => ¬ (c == '/'))).reverse

/-- Model of `new URL(raw, base)`: absolute URLs pass through, otherwise
`raw` is resolved against `base` (protocol-relative `//…`, root-relative
`/…`, query-only `?…`, fragment-only `#…`, or path-relative).  Dot segments
are not simplified. -/
def resolveURL (raw base : String) : Option JSURL :=
  match parseAbs raw with
  | some u => some u
  | none =>
    match parseAbs base with
    | none => none
    | some b =>
      match raw.data with
      | [] => some b
      | '/' :: '/' :: _ => parseAbs (b.scheme ++ ":" ++ raw)
      | '/' :: _ =>
        let pqf := splitPQF raw.data
        some { b with path := String.mk pqf.1, search := String.mk pqf.2.1,
                      hash := String.mk pqf.2.2 }
      | '?' :: _ =>
        let q := takeUntil ['#'] raw.data
        some { b with search := String.mk q.1, hash := String.mk q.2 }
      | '#' :: _ => some { b with hash := raw }
      | _ =>
        let pqf := splitPQF raw.data
        some { b with path := String.mk (dirOf b.path.data ++ pqf.1),
                      search := String.mk pqf.2.1, hash := String.mk pqf.2.2 }

/-! ### URLSearchParams model -/

/-- `URLSearchParams` drops one leading `?` of its initializer. -/
def dropLeadQM : List Char → List Char
  | '?' :: rest => rest
  | l => l

/-- Parse a query string into key-value pairs: split on `&`, drop empty
pieces, split each piece at its first `=` (a piece without `=` has empty
value).  Percent-decoding is not modelled. -/
def parsePairs (s : List Char) : List (List Char × List Char) :=
  ((splitOnChar '&' s).filter (fun p => p ≠ [])).map (fun piece =>
    let kv := takeUntil ['='] piece
    match kv.2 with
    | _ :: v => (kv.1, v)
    | [] => (kv.1, []))

/-- Serialize pairs back, `&`-separated (`URLSearchParams.toString` always
emits `k=v`). -/
def joinPairs : List (List Char × List Char) → List Char
  | [] => []
  | [kv] => kv.1 ++ '=' :: kv.2
  | kv :: rest => kv.1 ++ '=' :: kv.2 ++ '&' :: joinPairs rest

/-! ### crawler.cjs — URL normalization (`normalizeURL`, lines 166–199)

The configuration surface closed over by the source function
(`SAME_HOST_ONLY`, `INCLUDE_SUBDOMAINS`, `STRIP_ALL_QUERIES`,
`KEEP_QUERY_PARAMS`, `ALLOW_REGEX`, `DENY_REGEX`) is gathered in
`NormConfig`; the two optional regexes are abstract predicates applied to
the final string, exactly as `allowRx.test(final)` / `denyRx.test(final)`
are. -/

structure NormConfig where
  sameHostOnly : Bool := true
  includeSubdomains : Bool := true
  stripAllQueries : Bool := false
  keepQueryParams : List String := []
  allowRx : Option (String → Bool) := none
  denyRx : Option (String → Bool) := none

/-- `u.search = params.toString() ? '?'+params.toString() : ''` after the
configured query filtering, covering the three branches of the source. -/
def searchTransform (cfg : NormConfig) (search : List Char) : List Char :=
  if cfg.stripAllQueries then []
  else if cfg.keepQueryParams ≠ [] then
    let kept := (parsePairs (dropLeadQM search)).filter
      (fun kv => cfg.keepQueryParams.contains (String.mk kv.1))
    let t := joinPairs kept
    if t = [] then [] else '?' :: t
  else search

/-- The `/^https?:$/i` protocol test. -/
def schemeIsHTTP (scheme : String) : Bool :=
  ciEq scheme.data "http".data || ciEq scheme.data "https".data

/-- Host-scoping: `hostLower === rootLower` or, with subdomains included,
`hostLower.endsWith('.' + rootLower)`. -/
def hostAccepted (cfg : NormConfig) (host rootHost : String) : Bool :=
  ciEq host.data rootHost.data ||
    (cfg.includeSubdomains && ciEnds ('.' :: rootHost.data) host.data)

def endsSlash (s : String) : Bool :=
  match s.data.getLast? with
  | some c => c == '/'
  | none => false

def dropLastChar (s : String) : String := String.mk s.data.dropLast

/-- The string built by `normalizeURL` from a parsed URL before the
ALLOW/DENY filters: fragment cleared, query filtered, serialized, and one
trailing slash trimmed when the path is not `/`. -/
def finalOf (cfg : NormConfig) (u : JSURL) : String :=
  let u1 : JSURL :=
    { u with hash := "", search := String.mk (searchTransform cfg u.search.data) }
  let final0 := serializeURL u1
  if u1.path ≠ "/" && endsSlash final0 then dropLastChar final0 else final0

/-- `normalizeURL(raw, rootHost)` of src/crawler.cjs: parse (absolute URLs
only — relative resolution happens at the call sites), reject non-http(s)
schemes, apply host scoping, build `finalOf` (fragment stripped, query
filtered, one trailing slash trimmed when the path is not `/`), and finally
apply the ALLOW/DENY filters to it.  `none` models `null`. -/
def normalizeURL (cfg : NormConfig) (raw rootHost : String) : Option String :=
  match parseAbs raw with
  | none => none
  | some u =>
    if ¬ schemeIsHTTP u.scheme then none
    else if cfg.sameHostOnly && ! hostAccepted cfg u.host rootHost then none
    else if cfg.allowRx.elim true (fun f => f (finalOf cfg u)) = false then none
    else if cfg.denyRx.elim false (fun f => f (finalOf cfg u)) = true then none
    else some (finalOf cfg u)

/-- The crawler's link pipeline: `new URL(raw, item.url).toString()` then
`normalizeURL` (src/crawler.cjs lines 362–364). -/
def resolveNormalize (cfg : NormConfig) (raw base rootHost : String) : Option String :=
  match resolveURL raw base with
  | none => none
  | some r => normalizeURL cfg (serializeURL r) rootHost

/-! ### src/lib/structure-detect.cjs -/

/-- The numeric-suffix half of `isLikelyProduct`: the case-sensitive regex
testing for a hyphen, two or more digits and `.htm` or `.html` at the end of
the URL. -/
def prodNumSuffix (s : String) : Bool :=
  let l := s.data
  let core : Option (List Char) :=
    if listEndsC ".html".data l then some (l.take (l.length - 5))
    else if listEndsC ".htm".data l then some (l.take (l.length - 4))
    else none
  match core with
  | none => false
  | some c =>
    let r := c.reverse
    let ds := r.takeWhile Char.isDigit
    decide (2 ≤ ds.length) && ((r.drop ds.length).head? == some '-')

def isLikelyProduct (url : String) : Bool :=
  containsCI "product" url || containsCI "prod" url || containsCI "item" url ||
    containsCI "sku" url || containsCI "detail" url || prodNumSuffix url ||
    containsCI "product-details" url

/-- `isLikelyCategory`: `/(catalog|category|collection|listing|list)/i` or
`/catalog-details/i`. -/
def isLikelyCategory (url : String) : Bool :=
  containsCI "catalog" url || containsCI "category" url ||
    containsCI "collection" url || containsCI "listing" url ||
    containsCI "list" url || containsCI "catalog-details" url

/-- Planner-side `normalize(url, base)`:
`new URL(url, base).toString().replace(/(#.*)$/,'')`. -/
def normalizeSD (url base : String) : Option String :=
  (resolveURL url base).map (fun u => serializeURL { u with hash := "" })

/-- `u.searchParams.has(k)`. -/
def hasParam (u : JSURL) (k : String) : Bool :=
  (parsePairs (dropLeadQM u.search.data)).any (fun kv => kv.1 == k.data)

/-- JavaScript `URL#origin` for http(s) URLs (scheme and host lower-cased;
default-port elision not modelled). -/
def originOf (u : JSURL) : String :=
  String.mk (u.scheme.data.map (fun c => Char.ofNat (lcVal c))) ++ "://" ++
    String.mk (u.host.data.map (fun c => Char.ofNat (lcVal c))) ++ u.port

/-- `derivePaginationPattern(catUrl, page2Url)` of structure-detect.cjs. -/
def derivePaginationPattern (catUrl page2Url : String) : Option String :=
  match parseAbs catUrl, parseAbs page2Url with
  | some u1, some u2 =>
    if originOf u1 ≠ originOf u2 then none
    else if hasParam u2 "page" then
      some (originOf u2 ++ u2.path ++ "?page=" ++ "\x7bN\x7d")
    else if containsSubCI "/page/2".data u2.path.data then
      some (originOf u2 ++
        String.mk (ciReplaceFirst "/page/2".data ("/page/" ++ "\x7bN\x7d").data u2.path.data))
    else if hasParam u2 "p" then
      some (originOf u2 ++ u2.path ++ "?p=" ++ "\x7bN\x7d")
    else none
  | _, _ => none

/-! ### structure-detect.cjs — the Planner (`detectStructure`)

`loadPageExtract` is the renderer boundary: it returns outbound hrefs and
pagination-hint links, and on any navigation failure its catch block yields
all-empty results.  It is modelled as a `String → RenderResult` argument.
The purely diagnostic `signals` (price-token and JSON-LD counts) influence
no other plan field and no claim, and are omitted from the model; likewise
`plan.json` persistence, which is filesystem output. -/

structure RenderResult where
  hrefs : List String
  paginationLinks : List String
deriving DecidableEq

structure PageInfo where
  firstPage : String
  page2 : String
  patternHint : Option String
deriving DecidableEq

structure Plan where
  root : String
  categories : List String
  /-- `categoryProducts` as an association list in category order. -/
  categoryProducts : List (String × List String)
  productList : List String
  productsPerCategory : Nat
  globalProductCap : Nat
  pagination : List (String × PageInfo)
  categoryRegex : Option String
  productRegex : Option String
  hash : String
  generatedAt : String
deriving DecidableEq

/-- `buildGroupedRegex`: distinct path basenames, regex-escaped and grouped;
over 40 distinct basenames fall back to the broad numeric-`.html` pattern. -/
def regexEscapeChar (c : Char) : List Char :=
  if ['.', '*', '+', '?', '^', '$', '\x7b', '\x7d', '(', ')', '|', '[', ']', '\\'].contains c
  then ['\\', c] else [c]

def regexEscape (s : String) : String :=
  String.mk (s.data.flatMap regexEscapeChar)

def pathBasename (u : String) : Option String :=
  match parseAbs u with
  | none => none
  | some pu => ((splitOnChar '/' pu.path.data).filter (fun seg => seg ≠ [])).getLast?.map String.mk

def buildGroupedRegex (urls : List String) : Option String :=
  let bases := dedupFirst (urls.filterMap pathBasename)
  if bases = [] then none
  else
    let parts := bases.map regexEscape
    if 40 < parts.length then some "/[a-z0-9-]*[0-9][a-z0-9-]*\\.html$"
    else some ("/(?:" ++ String.intercalate "|" parts ++ ")$/")

/-- The `"page 2" shape` test applied to normalized pagination hints:
`/(page=2|\/page\/2|[?&]p=2)/i`. -/
def page2Shape (h : String) : Bool :=
  containsCI "page=2" h || containsCI "/page/2" h ||
    containsCI "?p=2" h || containsCI "&p=2" h

/-- Mutable per-probe plan pieces threaded through the category loop. -/
structure DetAcc where
  categoryProducts : List (String × List String)
  productList : List String
  pagination : List (String × PageInfo)
deriving DecidableEq

/-- The inner `for(const mp of moreProducts)` harvest of one pagination
page: stop at the global cap, and admit a product new to this category's
bucket while the bucket is under `productsPerCategory`, pushing it to the
bucket and the global list together. -/
def harvestPage (ppc cap : Nat) : List String → List String → List String →
    List String × List String
  | [], catList, prodList => (catList, prodList)
  | mp :: rest, catList, prodList =>
    if cap ≤ prodList.length then (catList, prodList)
    else if ¬ catList.contains mp ∧ catList.length < ppc then
      harvestPage ppc cap rest (catList ++ [mp]) (prodList ++ [mp])
    else harvestPage ppc cap rest catList prodList

/-- The `for(let p=2;p<=paginationMaxPages;p++)` pagination follow of one
category: synthesize the page URL from the pattern, probe it, harvest its
product links, and stop once the category bucket is full. -/
def pagLoop (render : String → RenderResult) (ppc cap : Nat) (cat pat : String) :
    List Nat → List String → List String → List String × List String
  | [], catList, prodList => (catList, prodList)
  | p :: ps, catList, prodList =>
    let candidate := String.mk (csReplaceFirst "\x7bN\x7d".data (toString p).data pat.data)
    if candidate = "" ∨ candidate = cat then pagLoop render ppc cap cat pat ps catList prodList
    else
      let probe := render candidate
      let pageNorm := dedupFirst (probe.hrefs.filterMap (fun h => normalizeSD h candidate))
      let more := sortStr (pageNorm.filter isLikelyProduct)
      let hp := harvestPage ppc cap more catList prodList
      if ppc ≤ hp.1.length then hp
      else pagLoop render ppc cap cat pat ps hp.1 hp.2

/-- One iteration of the planner's category loop (everything between the
global-cap break check and the progress log). -/
def probeOneCategory (render : String → RenderResult) (ppc cap maxPag : Nat)
    (cat : String) (acc : DetAcc) : DetAcc :=
  let catProbe := render cat
  let norm := dedupFirst (catProbe.hrefs.filterMap (fun h => normalizeSD h cat))
  let pagEntry : Option PageInfo :=
    if catProbe.paginationLinks ≠ [] then
      match (catProbe.paginationLinks.filterMap (fun h => normalizeSD h cat)).find? page2Shape with
      | some nextLink =>
        some { firstPage := cat, page2 := nextLink,
               patternHint := derivePaginationPattern cat nextLink }
      | none => none
    else none
  let prodLinks := sortStr (norm.filter isLikelyProduct)
  let selected := prodLinks.take ppc
  let pl1 := selected.foldl
    (fun pl p => if pl.length < cap ∧ ¬ pl.contains p then pl ++ [p] else pl)
    acc.productList
  let followed :=
    match pagEntry with
    | some info =>
      match info.patternHint with
      | some pat => pagLoop render ppc cap cat pat (List.range' 2 (maxPag - 1)) selected pl1
      | none => (selected, pl1)
    | none => (selected, pl1)
  { categoryProducts := acc.categoryProducts ++ [(cat, followed.1)],
    productList := followed.2,
    pagination :=
      match pagEntry with
      | some info => acc.pagination ++ [(cat, info)]
      | none => acc.pagination }

/-- The planner's category loop with its `break` once the global product cap
is reached (remaining categories are not probed at all). -/
def probeCategories (render : String → RenderResult) (ppc cap maxPag : Nat) :
    List String → DetAcc → DetAcc
  | [], acc => acc
  | cat :: rest, acc =>
    if cap ≤ acc.productList.length then acc
    else probeCategories render ppc cap maxPag rest
      (probeOneCategory render ppc cap maxPag cat acc)

/-- The JSON text hashed for the plan fingerprint:
`JSON.stringify({root, categories, products})` (string escaping is not
modelled; probe URLs contain no quotes or backslashes). -/
def jsonStr (s : String) : String := "\"" ++ s ++ "\""

def jsonArr (l : List String) : String :=
  "[" ++ String.intercalate "," (l.map jsonStr) ++ "]"

def planHashInput (root : String) (categories products : List String) : String :=
  "\x7b\"root\":" ++ jsonStr root ++ ",\"categories\":" ++ jsonArr categories ++
    ",\"products\":" ++ jsonArr products ++ "\x7d"

structure DetectArgs where
  startUrls : List String
  probeCategoryLimit : Nat := 40
  productsPerCategory : Nat := 10
  globalProductCap : Nat := 400
  paginationMaxPages : Nat := 5

/-- `detectStructure` of src/lib/structure-detect.cjs.  `render` is the
renderer capability, `hashFn` models the fixed `sha1`-and-truncate
fingerprint of the hash input text, and `now` the `new Date().toISOString()`
timestamp.  `none` models the `throw` on an empty `startUrls`. -/
def detectStructure (render : String → RenderResult) (hashFn : String → String)
    (now : String) (a : DetectArgs) : Option Plan :=
  match a.startUrls with
  | [] => none
  | root :: _ =>
    let rootProbe := render root
    let normRootLinks := dedupFirst (rootProbe.hrefs.filterMap (fun h => normalizeSD h root))
    let catCandidates := normRootLinks.filter isLikelyCategory
    let categories := sortStr (catCandidates.take a.probeCategoryLimit)
    let acc := probeCategories render a.productsPerCategory a.globalProductCap
      a.paginationMaxPages categories ⟨[], [], []⟩
    some {
      root := root,
      categories := categories,
      categoryProducts := acc.categoryProducts,
      productList := acc.productList,
      productsPerCategory := a.productsPerCategory,
      globalProductCap := a.globalProductCap,
      pagination := acc.pagination,
      categoryRegex := buildGroupedRegex categories,
      productRegex := buildGroupedRegex acc.productList,
      hash := hashFn (planHashInput root categories acc.productList),
      generatedAt := now }

/-! ### src/crawler.cjs — the Crawl Scheduler

The scheduler is embedded as a step function on an explicit state.  The
renderer (`page.goto` + link extraction) is a `String → Option (List String)`
argument: `none` models a navigation failure (the `catch` branch of
`processItem`), `some hrefs` the extracted `a[href]` attributes.  The STOP
sentinel file is a time-indexed oracle `stop : Nat → Bool` consulted once
per `stopRequested()` call; `CrawlState.clock` counts those calls.
`CrawlState.enqueueLog` and `CrawlState.halted` are history/control ghost
fields (not present in the source): the log records every URL ever inserted
into the frontier, and `halted` records that the `while` loop has exited. -/

structure FrontierItem where
  url : String
  depth : Nat
  /-- The `type` property: absent on plain BFS items, forced on plan seeds,
  overwritten by `enqueuePreferred` in quick deterministic mode. -/
  type? : Option String := none
  /-- `originCategory`, set only by quick-mode link extraction. -/
  originCategory : Option String := none
deriving DecidableEq

structure CrawlConfig where
  startUrls : List String
  maxPages : Nat := 200
  maxDepth : Nat := 3
  /-- QUICK_DET_MODE. -/
  quick : Bool := false
  /-- CATEGORY_PRODUCT_QUOTA (0 = disabled, JS falsiness). -/
  categoryProductQuota : Nat := 0
  /-- TOTAL_PRODUCT_CAP (0 = disabled). -/
  totalProductCap : Nat := 0
  /-- PLAN_PRODUCTS_PER_CATEGORY fallback used by the quota gate. -/
  planProductsPerCategory : Nat := 10
  /-- The structure plan in effect (FULL_AUTO_MODE), if any. -/
  plan : Option Plan := none
  /-- `categoryPreferRx` (after any plan override); `fun _ => false` models a
  null regex. -/
  catRx : String → Bool := fun _ => false
  /-- `preferRx` (after any plan override). -/
  prodRx : String → Bool := fun _ => false
  norm : NormConfig := {}

/-- `rootHost`: hostname of the first start URL, `''` if unparseable. -/
def rootHostOf (cfg : CrawlConfig) : String :=
  match parseAbs (cfg.startUrls.headI) with
  | some u => u.host
  | none => ""

/-- The `insertAt` scan of `enqueuePreferred`: index of the first queue entry
whose URL does not test as a category (equivalently, the length of the
leading category run). -/
def firstNonCatIdx (catRx : String → Bool) : List FrontierItem → Nat
  | [] => 0
  | it :: rest => if ¬ catRx it.url then 0 else firstNonCatIdx catRx rest + 1

/-- `enqueuePreferred(item)` (src/crawler.cjs lines 271–301), acting on the
queue.  Quick deterministic mode tags and appends (ordering is re-derived by
the pre-dequeue sort); otherwise a category goes to the absolute front, a
product right after the leading category run, and a normal item to the
back. -/
def enqueuePreferred (quick : Bool) (catRx prodRx : String → Bool)
    (item : FrontierItem) (queue : List FrontierItem) : List FrontierItem :=
  if item.url = "" then queue
  else
    let isCategory := catRx item.url
    let isProduct := ¬ isCategory ∧ prodRx item.url
    if quick then
      let tag := if isCategory then "category" else if isProduct then "product" else "normal"
      queue ++ [{ item with type? := some tag }]
    else if isCategory then item :: queue
    else if isProduct then
      let i := firstNonCatIdx catRx queue
      queue.take i ++ item :: queue.drop i
    else queue ++ [item]

structure CrawlState where
  queue : List FrontierItem
  seen : List String
  visitedOrder : List String
  depths : List (String × Nat)
  edges : List (String × String)
  pagesCrawled : Nat
  perCategoryCounts : List (String × Nat)
  globalProductCount : Nat
  productCategoryMap : List (String × String)
  /-- Ghost history: every URL ever inserted into the frontier. -/
  enqueueLog : List String
  /-- Number of `stopRequested()` calls made so far. -/
  clock : Nat
  /-- Ghost control: the crawl loop has exited. -/
  halted : Bool
deriving DecidableEq

/-- Insert an item through `enqueuePreferred`, recording it in the ghost
log. -/
def stEnqueue (cfg : CrawlConfig) (st : CrawlState) (item : FrontierItem) : CrawlState :=
  if item.url = "" then st
  else
    { st with
      queue := enqueuePreferred cfg.quick cfg.catRx cfg.prodRx item st.queue,
      enqueueLog := st.enqueueLog ++ [item.url] }

/-- `productCategoryMap` initialization from the plan (later categories
overwrite earlier ones for a shared product, as `Map.set` does). -/
def initProductCategoryMap (plan : Plan) : List (String × String) :=
  plan.categoryProducts.foldl
    (fun m cp => cp.2.foldl (fun m2 p => mset m2 p cp.1) m) []

def emptyCrawlState (cfg : CrawlConfig) : CrawlState :=
  { queue := [], seen := [], visitedOrder := [], depths := [], edges := [],
    pagesCrawled := 0, perCategoryCounts := [], globalProductCount := 0,
    productCategoryMap := cfg.plan.elim [] initProductCategoryMap,
    enqueueLog := [], clock := 0, halted := false }

/-- `addSeed(u, depth, forcedType)` of the plan-seeding branch. -/
def addSeed (cfg : CrawlConfig) (st : CrawlState) (u : String) (depth : Nat)
    (forcedType : String) : CrawlState :=
  match normalizeURL cfg.norm u (rootHostOf cfg) with
  | none => st
  | some n =>
    if st.seen.contains n then st
    else
      stEnqueue cfg
        { st with seen := st.seen ++ [n], depths := mset st.depths n depth }
        { url := n, depth := depth, type? := some forcedType }

/-- One start-URL seed of the plain (no-plan) branch: normalize, drop
silently on failure, skip if already seen, else mark seen and enqueue at
depth 0 with no forced tag. -/
def seedPlain (cfg : CrawlConfig) (st : CrawlState) (u : String) : CrawlState :=
  match normalizeURL cfg.norm u (rootHostOf cfg) with
  | none => st
  | some n =>
    if st.seen.contains n then st
    else
      stEnqueue cfg
        { st with seen := st.seen ++ [n], depths := mset st.depths n 0 }
        { url := n, depth := 0 }

/-- SEEDING: with a plan, the root and every plan category at depth 0 and
every plan product at depth 1; without one, the raw start URLs at depth 0
with no forced tag. -/
def seedState (cfg : CrawlConfig) : CrawlState :=
  let st0 := emptyCrawlState cfg
  match cfg.plan with
  | some plan =>
    let rootNorm := normalizeURL cfg.norm (cfg.startUrls.headI) (rootHostOf cfg)
    let st1 :=
      match rootNorm with
      | some r => addSeed cfg st0 r 0 "category"
      | none => st0
    let st2 := plan.categories.foldl
      (fun st c => if rootNorm = some c then st else addSeed cfg st c 0 "category") st1
    plan.productList.foldl (fun st p => addSeed cfg st p 1 "product") st2
  | none => cfg.startUrls.foldl (seedPlain cfg) st0

/-- `exceedsProductQuotas(url)` (src/crawler.cjs lines 408–426).  JS `&&`
guards on the numeric caps model 0 as "cap disabled". -/
def exceedsProductQuotas (cfg : CrawlConfig) (st : CrawlState) (url : String) : Bool :=
  let isProduct := cfg.prodRx url && ! cfg.catRx url
  if ¬ isProduct then false
  else
    match cfg.plan with
    | some plan =>
      if plan.globalProductCap ≠ 0 ∧ plan.globalProductCap ≤ st.globalProductCount then true
      else
        let cat := (mlookup st.productCategoryMap url).getD "__uncat__"
        let limit := if plan.productsPerCategory ≠ 0 then plan.productsPerCategory
                     else cfg.planProductsPerCategory
        let current := (mlookup st.perCategoryCounts cat).getD 0
        decide (limit ≠ 0 ∧ limit ≤ current)
    | none =>
      if cfg.quick then
        if cfg.totalProductCap ≠ 0 ∧ cfg.totalProductCap ≤ st.globalProductCount then true
        else
          let current := (mlookup st.perCategoryCounts "__global__").getD 0
          decide (cfg.categoryProductQuota ≠ 0 ∧ cfg.categoryProductQuota ≤ current)
      else false

/-- Link extraction for one successfully rendered page (the `for(const raw
of hrefs)` body). -/
def extractLink (cfg : CrawlConfig) (item : FrontierItem) (st : CrawlState)
    (raw : String) : CrawlState :=
  if raw = "" then st
  else
    match resolveURL raw item.url with
    | none => st
    | some r =>
      match normalizeURL cfg.norm (serializeURL r) (rootHostOf cfg) with
      | none => st
      | some norm =>
        let st := { st with edges := st.edges ++ [(item.url, norm)] }
        if st.seen.contains norm then st
        else
          let d := item.depth + 1
          let st := { st with seen := st.seen ++ [norm], depths := mset st.depths norm d }
          if d ≤ cfg.maxDepth ∧ st.visitedOrder.length < cfg.maxPages then
            if cfg.quick ∧ cfg.plan = none ∧ cfg.catRx item.url ∧
                (cfg.prodRx norm ∧ ¬ cfg.catRx norm) then
              stEnqueue cfg st { url := norm, depth := d, originCategory := some item.url }
            else
              stEnqueue cfg st { url := norm, depth := d }
          else st

/-- `processItem(item)` (src/crawler.cjs lines 340–396): budget, depth and
stop gates, then render; a failure is caught and leaves no visit record; a
success appends the page to `visitedOrder` and, while budget and depth
allow, extracts and enqueues its links. -/
def processItem (cfg : CrawlConfig) (render : String → Option (List String))
    (stop : Nat → Bool) (st : CrawlState) (item : FrontierItem) : CrawlState :=
  if cfg.maxPages ≤ st.pagesCrawled then st
  else if cfg.maxDepth < item.depth then st
  else
    let stopped := stop st.clock
    let st := { st with clock := st.clock + 1 }
    if stopped then st
    else
      match render item.url with
      | none => st
      | some hrefs =>
        let st := { st with visitedOrder := st.visitedOrder ++ [item.url],
                            pagesCrawled := st.pagesCrawled + 1 }
        if st.pagesCrawled < cfg.maxPages ∧ item.depth < cfg.maxDepth then
          hrefs.foldl (extractLink cfg item) st
        else st

/-- Quick deterministic mode's pre-dequeue re-ranking: tier rank (category <
product < normal), then URL order. -/
def rankOf (it : FrontierItem) : Nat :=
  match it.type? with
  | some "category" => 0
  | some "product" => 1
  | _ => 2

def itemLe (a b : FrontierItem) : Bool :=
  decide (rankOf a < rankOf b) || (rankOf a == rankOf b && strLe a.url b.url)

def sortQueue (q : List FrontierItem) : List FrontierItem := isort itemLe q

/-- The post-fetch product accounting at the bottom of the crawl loop. -/
def bumpQuota (cfg : CrawlConfig) (st : CrawlState) (item : FrontierItem) : CrawlState :=
  let isProduct := cfg.prodRx item.url && ! cfg.catRx item.url
  if ¬ isProduct then st
  else
    let st := { st with globalProductCount := st.globalProductCount + 1 }
    match cfg.plan with
    | some _ =>
      let cat := (mlookup st.productCategoryMap item.url).getD "__uncat__"
      let counts := mset st.perCategoryCounts cat (((mlookup st.perCategoryCounts cat).getD 0) + 1)
      { st with perCategoryCounts := counts }
    | none =>
      if cfg.quick then
        let originCat := item.originCategory.getD "__global__"
        let st :=
          if (mlookup st.productCategoryMap item.url).isNone ∧ originCat ≠ "__global__" then
            { st with productCategoryMap := mset st.productCategoryMap item.url originCat }
          else st
        let counts := mset st.perCategoryCounts originCat
          (((mlookup st.perCategoryCounts originCat).getD 0) + 1)
        { st with perCategoryCounts := counts }
      else st

/-- One iteration of the DRAINING `while` loop.  Loop exit (empty frontier,
page budget, or observed stop signal) sets the ghost `halted` flag, after
which the state is frozen. -/
def step1 (cfg : CrawlConfig) (render : String → Option (List String))
    (stop : Nat → Bool) (st : CrawlState) : CrawlState :=
  if st.halted then st
  else if st.queue = [] ∨ cfg.maxPages ≤ st.pagesCrawled then { st with halted := true }
  else
    let stopped := stop st.clock
    let st := { st with clock := st.clock + 1 }
    if stopped then { st with halted := true }
    else
      let q := if cfg.quick then sortQueue st.queue else st.queue
      match q with
      | [] => { st with halted := true }
      | item :: rest =>
        let st := { st with queue := rest }
        if exceedsProductQuotas cfg st item.url then st
        else bumpQuota cfg (processItem cfg render stop st item) item

/-- Run `n` loop iterations from a state. -/
def runSteps (cfg : CrawlConfig) (render : String → Option (List String))
    (stop : Nat → Bool) : Nat → CrawlState → CrawlState
  | 0, st => st
  | n + 1, st => runSteps cfg render stop n (step1 cfg render stop st)

/-- The whole crawl: seed, then drain for (at most) `fuel` iterations. -/
def crawlRun (cfg : CrawlConfig) (render : String → Option (List String))
    (stop : Nat → Bool) (fuel : Nat) : CrawlState :=
  runSteps cfg render stop fuel (seedState cfg)

/-- The report.json fields the claims are about, built as the source builds
them after the loop: `stoppedEarly` re-invokes `stopRequested()` at write
time. -/
structure CrawlReport where
  pagesCrawled : Nat
  seedsForArchive : Nat
  totalDiscovered : Nat
  stoppedEarly : Bool
deriving DecidableEq

def mkReport (stop : Nat → Bool) (cfg : CrawlConfig) (st : CrawlState) : CrawlReport :=
  { pagesCrawled := st.visitedOrder.length,
    seedsForArchive := (st.visitedOrder.take cfg.maxPages).length,
    totalDiscovered := st.seen.length,
    stoppedEarly := stop st.clock }

/-! ### Fixtures

Concrete sites (renderer behaviours) and configurations used to evaluate the
embedded code on specific inputs. -/

/-- Planner fixture: two category pages; `catalog-a` links the product
directly, `catalog-b` reaches the same product only through its page-2
pagination probe. -/
def dupSiteRender (u : String) : RenderResult :=
  if u = "https://s.test/" then
    { hrefs := ["https://s.test/catalog-a", "https://s.test/catalog-b"], paginationLinks := [] }
  else if u = "https://s.test/catalog-a" then
    { hrefs := ["https://s.test/item-9.html"], paginationLinks := [] }
  else if u = "https://s.test/catalog-b" then
    { hrefs := [], paginationLinks := ["https://s.test/catalog-b?page=2"] }
  else if u = "https://s.test/catalog-b?page=2" then
    { hrefs := ["https://s.test/item-9.html"], paginationLinks := [] }
  else { hrefs := [], paginationLinks := [] }

/-- Crawler fixture for quick deterministic mode: one category page linking
two product pages, with a per-category quota of 1. -/
def quickQuotaCfg : CrawlConfig :=
  { startUrls := ["https://s.test/catalog"], maxPages := 10, maxDepth := 3,
    quick := true, categoryProductQuota := 1,
    catRx := fun u => u = "https://s.test/catalog",
    prodRx := fun u => u = "https://s.test/item-1.html" ∨ u = "https://s.test/item-2.html" }

def quickQuotaRender (u : String) : Option (List String) :=
  if u = "https://s.test/catalog" then
    some ["https://s.test/item-1.html", "https://s.test/item-2.html"]
  else some []

/-- A stop oracle that never fires. -/
def neverStop : Nat → Bool := fun _ => false

/-! ### Claim theorems -/

/-- **C2** (code_bug evaluation).  In quick deterministic mode with
`CATEGORY_PRODUCT_QUOTA = 1` and no plan, a category page exposing two
product links gets both of them fetched: the quota gate reads only the
`"__global__"` counter while `bumpQuota` distributes counts to the item's
`originCategory`, so the per-category count of fetched product-tagged pages
reaches 2 > 1, violating the per-category quota invariant the claim
states. -/
theorem quick_mode_per_category_quota_violated :
    quickQuotaCfg.categoryProductQuota = 1 ∧
    (quickQuotaCfg.prodRx "https://s.test/item-1.html" &&
      ! quickQuotaCfg.catRx "https://s.test/item-1.html") = true ∧
    (quickQuotaCfg.prodRx "https://s.test/item-2.html" &&
      ! quickQuotaCfg.catRx "https://s.test/item-2.html") = true ∧
    (crawlRun quickQuotaCfg quickQuotaRender neverStop 6).visitedOrder =
      ["https://s.test/catalog", "https://s.test/item-1.html", "https://s.test/item-2.html"] ∧
    mlookup (crawlRun quickQuotaCfg quickQuotaRender neverStop 6).perCategoryCounts
      "https://s.test/catalog" = some 2 := by
  refine ⟨rfl, by decide, by decide, by decide, by decide⟩

/-- **C1** (code_bug evaluation).  On `dupSiteRender`, the plan's
`productList` contains `item-9.html` twice: `catalog-a` admits it through
the deduplicating direct-selection merge, but `catalog-b`'s pagination
harvest checks only membership in `categoryProducts[catalog-b]` and pushes
it onto `productList` again, so `productList` is not the deduplicated union
the claim states. -/
theorem plan_product_list_duplicated :
    (detectStructure dupSiteRender (fun s => s) "t0"
        { startUrls := ["https://s.test/"] }).map Plan.productList =
      some ["https://s.test/item-9.html", "https://s.test/item-9.html"] ∧
    ¬ List.Nodup ((detectStructure dupSiteRender (fun s => s) "t0"
        { startUrls := ["https://s.test/"] }).elim [] Plan.productList) ∧
    (detectStructure dupSiteRender (fun s => s) "t0"
        { startUrls := ["https://s.test/"] }).map Plan.globalProductCap = some 400 := by
  refine ⟨by decide, by decide, by decide⟩

/-- C10 fixtures: an unassisted single-page crawl that drains its frontier
normally, with two stop oracles — one whose sentinel appears only after the
loop's last check, one whose sentinel is present during the loop but gone by
report-writing time. -/
def onePageCfg : CrawlConfig := { startUrls := ["https://a.test/"] }

def sentinelAfterLoop : Nat → Bool := fun i => decide (2 ≤ i)

def sentinelOnlyDuringLoop : Nat → Bool := fun i => decide (i = 0)

/-- **C10** (confirmed).  `stoppedEarly` is exactly the value of the STOP
sentinel check made at report-writing time, after the loop: (i) in general
the report field equals the stop oracle sampled at the final clock; (ii) a
run that ends by draining its frontier (all in-loop checks false) still
reports `stoppedEarly = true` when the sentinel exists at write time;
(iii) a run actually halted by the sentinel reports `stoppedEarly = false`
when the sentinel is gone by write time. -/
theorem stopped_early_is_write_time_check :
    (∀ (cfg : CrawlConfig) (render : String → Option (List String))
        (stop : Nat → Bool) (fuel : Nat),
      (mkReport stop cfg (crawlRun cfg render stop fuel)).stoppedEarly =
        stop (crawlRun cfg render stop fuel).clock) ∧
    ((crawlRun onePageCfg (fun _ => some []) sentinelAfterLoop 5).halted = true ∧
      (crawlRun onePageCfg (fun _ => some []) sentinelAfterLoop 5).queue = [] ∧
      (crawlRun onePageCfg (fun _ => some []) sentinelAfterLoop 5).clock = 2 ∧
      sentinelAfterLoop 0 = false ∧ sentinelAfterLoop 1 = false ∧
      (mkReport sentinelAfterLoop onePageCfg
        (crawlRun onePageCfg (fun _ => some []) sentinelAfterLoop 5)).stoppedEarly = true) ∧
    ((crawlRun onePageCfg (fun _ => some []) sentinelOnlyDuringLoop 5).halted = true ∧
      (crawlRun onePageCfg (fun _ => some []) sentinelOnlyDuringLoop 5).visitedOrder = [] ∧
      (crawlRun onePageCfg (fun _ => some []) sentinelOnlyDuringLoop 5).queue ≠ [] ∧
      (mkReport sentinelOnlyDuringLoop onePageCfg
        (crawlRun onePageCfg (fun _ => some []) sentinelOnlyDuringLoop 5)).stoppedEarly = false) := by
  refine ⟨fun cfg render stop fuel => rfl, ⟨by decide, by decide, by decide, rfl, rfl, by decide⟩,
    ⟨by decide, by decide, by decide, by decide⟩⟩

/-- The `page` query-parameter rule as the claim words it ("the parameter's
value is replaced with a placeholder, the rest of the URL preserved"): a
second definition following the specification text, for comparison with the
source's `derivePaginationPattern`. -/
def specPageRuleTemplate (page2Url : String) : Option String :=
  match parseAbs page2Url with
  | none => none
  | some u =>
    let ps := parsePairs (dropLeadQM u.search.data)
    let ps2 := ps.map (fun kv => if kv.1 = "page".data then (kv.1, "\x7bN\x7d".data) else kv)
    some (serializeURL { u with search := String.mk ('?' :: joinPairs ps2) })

/-- **C6** (counterexample).  With a second query parameter present, the
code's `page` rule rebuilds the template as origin + pathname + `?page={N}`
and so drops `sort=asc`, while replacing the parameter's value with the rest
of the URL preserved (the claim's wording, `specPageRuleTemplate`) would
keep it: the two results differ, refuting the "rest of the URL preserved"
part of the claim. -/
theorem derive_pattern_drops_other_params :
    derivePaginationPattern "https://x.test/cat" "https://x.test/cat?sort=asc&page=2" =
      some ("https://x.test/cat?page=" ++ "\x7bN\x7d") ∧
    specPageRuleTemplate "https://x.test/cat?sort=asc&page=2" =
      some ("https://x.test/cat?sort=asc&page=" ++ "\x7bN\x7d") ∧
    derivePaginationPattern "https://x.test/cat" "https://x.test/cat?sort=asc&page=2" ≠
      specPageRuleTemplate "https://x.test/cat?sort=asc&page=2" := by
  refine ⟨by decide, by decide, by decide⟩

/-- **C6** (amended).  `derivePaginationPattern` returns none when either URL
is unparseable or the origins differ; otherwise it applies, in order, the
`page` query-parameter rule — template `origin + pathname + "?page={N}"`,
discarding any other query parameters and the fragment — then the `/page/2`
path-segment rule — template `origin` + pathname with its first
(case-insensitive) `/page/2` replaced by `/page/{N}`, query discarded — then
the `p` query-parameter rule — template `origin + pathname + "?p={N}"` —
the first matching rule winning and none returned if none match; the
claim's concrete instances hold as stated. -/
theorem derive_pattern_rule_order (c p2 : String) (u1 u2 : JSURL)
    (hc : parseAbs c = some u1) (hp : parseAbs p2 = some u2) :
    (originOf u1 ≠ originOf u2 → derivePaginationPattern c p2 = none) ∧
    (originOf u1 = originOf u2 → hasParam u2 "page" = true →
      derivePaginationPattern c p2 =
        some (originOf u2 ++ u2.path ++ "?page=" ++ "\x7bN\x7d")) ∧
    (originOf u1 = originOf u2 → hasParam u2 "page" = false →
      containsSubCI "/page/2".data u2.path.data = true →
      derivePaginationPattern c p2 =
        some (originOf u2 ++
          String.mk (ciReplaceFirst "/page/2".data ("/page/" ++ "\x7bN\x7d").data u2.path.data))) ∧
    (originOf u1 = originOf u2 → hasParam u2 "page" = false →
      containsSubCI "/page/2".data u2.path.data = false → hasParam u2 "p" = true →
      derivePaginationPattern c p2 = some (originOf u2 ++ u2.path ++ "?p=" ++ "\x7bN\x7d")) ∧
    (originOf u1 = originOf u2 → hasParam u2 "page" = false →
      containsSubCI "/page/2".data u2.path.data = false → hasParam u2 "p" = false →
      derivePaginationPattern c p2 = none) ∧
    derivePaginationPattern "https://x.test/cat" "https://x.test/cat?page=2" =
      some ("https://x.test/cat?page=" ++ "\x7bN\x7d") ∧
    derivePaginationPattern "https://x.test/cat" "https://x.test/cat/page/2" =
      some ("https://x.test/cat/page/" ++ "\x7bN\x7d") ∧
    derivePaginationPattern "https://x.test/cat" "https://other.test/cat?page=2" = none := by
  unfold derivePaginationPattern
  rw [hc, hp]
  refine ⟨fun hne => ?_, fun he hpg => ?_, fun he hpg hseg => ?_,
    fun he hpg hseg hpp => ?_, fun he hpg hseg hpp => ?_, by decide, by decide, by decide⟩
  · simp [hne]
  · simp [he, hpg]
  · simp [he, hpg, hseg]
  · simp [he, hpg, hseg, hpp]
  · simp [he, hpg, hseg, hpp]

/-- **C6** (witness).  The amended characterization applied to the claim's
first concrete instance. -/
theorem derive_pattern_rule_order_witness :
    derivePaginationPattern "https://x.test/cat" "https://x.test/cat?page=2" =
      some ("https://x.test/cat?page=" ++ "\x7bN\x7d") :=
  (derive_pattern_rule_order "https://x.test/cat" "https://x.test/cat?page=2"
    { scheme := "https", host := "x.test", port := "", path := "/cat", search := "", hash := "" }
    { scheme := "https", host := "x.test", port := "", path := "/cat",
      search := "?page=2", hash := "" } (by decide) (by decide)).2.1
    (by decide) (by decide)

/-- **C7** (counterexample).  Normalization trims only one trailing slash,
so it is not idempotent: the double-trailing-slash URL normalizes to
`…/x/`, which normalizes further to `…/x`. -/
theorem normalize_not_idempotent :
    normalizeURL {} "https://a.test/x//" "a.test" = some "https://a.test/x/" ∧
    normalizeURL {} "https://a.test/x/" "a.test" = some "https://a.test/x" ∧
    normalizeURL {} "https://a.test/x/" "a.test" ≠ some "https://a.test/x/" := by
  refine ⟨by decide, by decide, by decide⟩

/-- A configuration with a DENY_REGEX in force, used to refute C8's "exactly
in these cases" list. -/
def denyCfg : NormConfig := { denyRx := some (fun s => containsCI "secret" s) }

/-- **C8** (counterexample).  Two refutations of the claim: (i) with a deny
filter configured, an absolute same-host https URL — resolvable, http(s),
host-accepted, so in none of the claim's three null cases — still
normalizes to null; (ii) the protocol-relative raw string `//evil.com/x`
resolves against the supplied base, yet the link pipeline yields null
(host scoping), refuting "a relative raw string that resolves against the
supplied base yields a non-null NormalizedURL". -/
theorem normalize_null_beyond_listed_cases :
    (parseAbs "https://a.test/secret-page" =
      some { scheme := "https", host := "a.test", port := "", path := "/secret-page",
             search := "", hash := "" } ∧
     schemeIsHTTP "https" = true ∧
     hostAccepted denyCfg "a.test" "a.test" = true ∧
     normalizeURL denyCfg "https://a.test/secret-page" "a.test" = none) ∧
    ((resolveURL "//evil.com/x" "https://a.test/").isSome = true ∧
     resolveNormalize {} "//evil.com/x" "https://a.test/" "a.test" = none) := by
  refine ⟨⟨by decide, by decide, by decide, by decide⟩, ⟨by decide, by decide⟩⟩

/-- **C8** (amended).  `normalizeURL` never throws (it is total, returning
an `Option`), and it returns null exactly when: the raw string does not
parse as an absolute URL, the scheme is not http(s), host scoping rejects
the host, the ALLOW filter fails on the final string, or the DENY filter
hits it; and the link pipeline (`new URL(raw, base)` then `normalizeURL`)
returns null exactly when resolution fails or the resolved URL's
serialization falls in one of those cases — so a relative raw string that
resolves against the base yields a non-null NormalizedURL precisely when
the resolved URL passes the scheme, host-scoping and filter checks. -/
theorem normalize_null_cases (cfg : NormConfig) (raw base rootHost : String) :
    (normalizeURL cfg raw rootHost = none ↔
      parseAbs raw = none ∨
        ∃ u, parseAbs raw = some u ∧
          (schemeIsHTTP u.scheme = false ∨
           (cfg.sameHostOnly && ! hostAccepted cfg u.host rootHost) = true ∨
           cfg.allowRx.elim true (fun f => f (finalOf cfg u)) = false ∨
           cfg.denyRx.elim false (fun f => f (finalOf cfg u)) = true)) ∧
    (resolveNormalize cfg raw base rootHost = none ↔
      resolveURL raw base = none ∨
        ∃ r, resolveURL raw base = some r ∧
          (parseAbs (serializeURL r) = none ∨
            ∃ u, parseAbs (serializeURL r) = some u ∧
              (schemeIsHTTP u.scheme = false ∨
               (cfg.sameHostOnly && ! hostAccepted cfg u.host rootHost) = true ∨
               cfg.allowRx.elim true (fun f => f (finalOf cfg u)) = false ∨
               cfg.denyRx.elim false (fun f => f (finalOf cfg u)) = true))) := by
  have hchar : ∀ s : String, normalizeURL cfg s rootHost = none ↔
      parseAbs s = none ∨
        ∃ u, parseAbs s = some u ∧
          (schemeIsHTTP u.scheme = false ∨
           (cfg.sameHostOnly && ! hostAccepted cfg u.host rootHost) = true ∨
           cfg.allowRx.elim true (fun f => f (finalOf cfg u)) = false ∨
           cfg.denyRx.elim false (fun f => f (finalOf cfg u)) = true) := by
    intro s
    unfold normalizeURL
    cases hp : parseAbs s with
    | none => simp
    | some u =>
      rcases Bool.eq_false_or_eq_true (schemeIsHTTP u.scheme) with h1 | h1 <;>
        rcases Bool.eq_false_or_eq_true (cfg.sameHostOnly && ! hostAccepted cfg u.host rootHost)
          with h2 | h2 <;>
        rcases Bool.eq_false_or_eq_true (cfg.allowRx.elim true (fun f => f (finalOf cfg u)))
          with h3 | h3 <;>
        rcases Bool.eq_false_or_eq_true (cfg.denyRx.elim false (fun f => f (finalOf cfg u)))
          with h4 | h4 <;>
      simp_all
  refine ⟨hchar raw, ?_⟩
  unfold resolveNormalize
  cases hr : resolveURL raw base with
  | none => simp
  | some r =>
    rw [hchar (serializeURL r)]
    simp

/-- **C4** (confirmed).  The plan hash is a function of (root, categories,
productList), which in turn depend only on the renderer's answers and the
limits: two probes whose renderers answer identically — even at different
timestamps, so the plans' `generatedAt` may differ — produce the same hash,
and that hash is the fingerprint of the (root, categories, productList)
triple. -/
theorem plan_hash_deterministic (r1 r2 : String → RenderResult)
    (hashFn : String → String) (t1 t2 : String) (a : DetectArgs) (p1 p2 : Plan)
    (hr : ∀ u, r1 u = r2 u)
    (h1 : detectStructure r1 hashFn t1 a = some p1)
    (h2 : detectStructure r2 hashFn t2 a = some p2) :
    p1.hash = p2.hash ∧
    p1.hash = hashFn (planHashInput p1.root p1.categories p1.productList) ∧
    p1.root = p2.root ∧ p1.categories = p2.categories ∧ p1.productList = p2.productList := by
  have hfe : r1 = r2 := funext hr
  subst hfe
  cases ha : a.startUrls with
  | nil => rw [detectStructure, ha] at h1; exact absurd h1 (by simp)
  | cons root rest =>
    rw [detectStructure, ha] at h1 h2
    obtain rfl : _ = p1 := Option.some.inj h1
    obtain rfl : _ = p2 := Option.some.inj h2
    exact ⟨rfl, rfl, rfl, rfl, rfl⟩

/-- Two extensionally equal but syntactically different trivial renderers,
and the plan each yields on a link-free fixture root. -/
def trivRenderA : String → RenderResult := fun _ => { hrefs := [], paginationLinks := [] }

def trivRenderB : String → RenderResult :=
  fun _ => { hrefs := ([] : List String).map id, paginationLinks := [] }

def trivPlan (t : String) : Plan :=
  { root := "https://w.test/", categories := [], categoryProducts := [],
    productList := [], productsPerCategory := 10, globalProductCap := 400,
    pagination := [], categoryRegex := none, productRegex := none,
    hash := "\x7b\"root\":\"https://w.test/\",\"categories\":[],\"products\":[]\x7d",
    generatedAt := t }

/-- **C4** (witness).  The determinism theorem applied to a concrete fixture:
two probes at different timestamps with identically-answering renderers
yield plans with the same hash. -/
theorem plan_hash_deterministic_witness :
    detectStructure trivRenderA (fun s => s) "2024-01-01"
      { startUrls := ["https://w.test/"] } = some (trivPlan "2024-01-01") ∧
    detectStructure trivRenderB (fun s => s) "2024-02-02"
      { startUrls := ["https://w.test/"] } = some (trivPlan "2024-02-02") ∧
    (trivPlan "2024-01-01").hash = (trivPlan "2024-02-02").hash := by
  have ha : detectStructure trivRenderA (fun s => s) "2024-01-01"
      { startUrls := ["https://w.test/"] } = some (trivPlan "2024-01-01") := by decide
  have hb : detectStructure trivRenderB (fun s => s) "2024-02-02"
      { startUrls := ["https://w.test/"] } = some (trivPlan "2024-02-02") := by decide
  exact ⟨ha, hb,
    (plan_hash_deterministic trivRenderA trivRenderB (fun s => s) "2024-01-01" "2024-02-02"
      { startUrls := ["https://w.test/"] } (trivPlan "2024-01-01") (trivPlan "2024-02-02")
      (fun u => rfl) ha hb).1⟩

/-! ### The unordered-priority frontier invariant (C5) -/

/-- The frontier shape maintained in unordered-priority mode: a leading run
of category-classified items followed only by non-category items. -/
def CatsFront (catRx : String → Bool) (q : List FrontierItem) : Prop :=
  ∃ a b, q = a ++ b ∧ (∀ it ∈ a, catRx it.url = true) ∧ (∀ it ∈ b, catRx it.url = false)

theorem catsFront_nil (catRx : String → Bool) : CatsFront catRx [] :=
  ⟨[], [], rfl, by simp, by simp⟩

theorem catsFront_tail (catRx : String → Bool) (q : List FrontierItem)
    (h : CatsFront catRx q) : CatsFront catRx q.tail := by
  obtain ⟨a, b, rfl, ha, hb⟩ := h
  cases a with
  | nil =>
    cases b with
    | nil => exact ⟨[], [], rfl, by simp, by simp⟩
    | cons x xs => exact ⟨[], xs, by simp, by simp, fun it hit => hb it (by simp [hit])⟩
  | cons x xs =>
    exact ⟨xs, b, by simp, fun it hit => ha it (by simp [hit]), hb⟩

theorem firstNonCatIdx_spec (catRx : String → Bool) :
    ∀ q : List FrontierItem,
      q.take (firstNonCatIdx catRx q) = q.takeWhile (fun it => catRx it.url) ∧
      q.drop (firstNonCatIdx catRx q) = q.dropWhile (fun it => catRx it.url) := by
  intro q
  induction q with
  | nil => simp [firstNonCatIdx]
  | cons h t ih =>
    by_cases hc : catRx h.url
    · simp [firstNonCatIdx, hc, List.takeWhile_cons, List.dropWhile_cons, ih.1, ih.2]
    · simp [firstNonCatIdx, hc, List.takeWhile_cons, List.dropWhile_cons]

theorem takeWhile_of_front (catRx : String → Bool) (a b : List FrontierItem)
    (ha : ∀ it ∈ a, catRx it.url = true) (hb : ∀ it ∈ b, catRx it.url = false) :
    (a ++ b).takeWhile (fun it => catRx it.url) = a ∧
    (a ++ b).dropWhile (fun it => catRx it.url) = b := by
  induction a with
  | nil =>
    cases b with
    | nil => simp
    | cons x xs =>
      have hx := hb x (by simp)
      simp [List.takeWhile_cons, List.dropWhile_cons, hx]
  | cons x xs ih =>
    have hx := ha x (by simp)
    have := ih (fun it hit => ha it (by simp [hit]))
    simp [List.takeWhile_cons, List.dropWhile_cons, hx, this.1, this.2]

theorem front_no_noncat_before_cat (catRx : String → Bool) :
    ∀ (a b l1 : List FrontierItem) (x : FrontierItem) (l2 : List FrontierItem)
      (y : FrontierItem) (l3 : List FrontierItem),
      (∀ it ∈ a, catRx it.url = true) → (∀ it ∈ b, catRx it.url = false) →
      a ++ b = l1 ++ x :: (l2 ++ (y :: l3)) → catRx y.url = true → catRx x.url = true := by
  intro a
  induction a with
  | nil =>
    intro b l1 x l2 y l3 _ hb heq hy
    have hyb : y ∈ b := by
      rw [List.nil_append] at heq
      subst heq
      simp
    exact absurd (hb y hyb) (by simp [hy])
  | cons h a2 ih =>
    intro b l1 x l2 y l3 ha hb heq hy
    cases l1 with
    | nil =>
      simp only [List.nil_append, List.cons_append] at heq
      injection heq with hx hrest
      exact hx ▸ ha h (by simp)
    | cons h1 l1t =>
      simp only [List.cons_append] at heq
      injection heq with hh hrest
      exact ih b l1t x l2 y l3 (fun it hit => ha it (List.mem_cons_of_mem _ hit)) hb hrest hy

/-- **C5** (confirmed).  In unordered-priority mode, `enqueuePreferred`
preserves the categories-first frontier shape and places items as the claim
says: a category item at the absolute front, a product item immediately
after the leading run of category items (before the first non-category
item), a normal item at the end; consequently, in the resulting frontier no
non-category item — in particular no normal-tagged and no product-tagged
item — ever precedes a category-tagged item.  (Dequeuing preserves the
shape as well, so every frontier reachable in this mode satisfies the
hypothesis; classification is the regex classification the scheduler itself
uses.) -/
theorem enqueue_preferred_priority (catRx prodRx : String → Bool)
    (item : FrontierItem) (q : List FrontierItem)
    (hq : CatsFront catRx q) (hne : item.url ≠ "") :
    CatsFront catRx (enqueuePreferred false catRx prodRx item q) ∧
    (catRx item.url = true → enqueuePreferred false catRx prodRx item q = item :: q) ∧
    (catRx item.url = false → prodRx item.url = true →
      enqueuePreferred false catRx prodRx item q =
        q.takeWhile (fun it => catRx it.url) ++ item :: q.dropWhile (fun it => catRx it.url)) ∧
    (catRx item.url = false → prodRx item.url = false →
      enqueuePreferred false catRx prodRx item q = q ++ [item]) ∧
    (∀ (l1 : List FrontierItem) (x : FrontierItem) (l2 : List FrontierItem)
      (y : FrontierItem) (l3 : List FrontierItem),
      enqueuePreferred false catRx prodRx item q = l1 ++ x :: (l2 ++ (y :: l3)) →
      catRx y.url = true → catRx x.url = true) := by
  obtain ⟨a, b, rfl, ha, hb⟩ := hq
  have htd := firstNonCatIdx_spec catRx (a ++ b)
  have htw := takeWhile_of_front catRx a b ha hb
  by_cases hc : catRx item.url
  · have hres : enqueuePreferred false catRx prodRx item (a ++ b) = item :: (a ++ b) := by
      simp [enqueuePreferred, hne, hc]
    have hfront : CatsFront catRx (item :: (a ++ b)) :=
      ⟨item :: a, b, by simp, by
        intro it hit
        rcases List.mem_cons.mp hit with h | h
        · subst h; exact hc
        · exact ha it h, hb⟩
    refine ⟨hres ▸ hfront, fun _ => hres, fun hcf _ => absurd hc (by simp [hcf]),
      fun hcf _ => absurd hc (by simp [hcf]), ?_⟩
    intro l1 x l2 y l3 heq hy
    exact front_no_noncat_before_cat catRx (item :: a) b l1 x l2 y l3
      (by
        intro it hit
        rcases List.mem_cons.mp hit with h | h
        · subst h; exact hc
        · exact ha it h) hb (by rw [← heq, hres]; simp) hy
  · have hc' : catRx item.url = false := by simpa using hc
    by_cases hp : prodRx item.url
    · have hres : enqueuePreferred false catRx prodRx item (a ++ b) =
          a ++ item :: b := by
        simp [enqueuePreferred, hne, hc', hp, htd.1, htd.2, htw.1, htw.2]
      have hfront : CatsFront catRx (a ++ item :: b) :=
        ⟨a, item :: b, rfl, ha, by
          intro it hit
          rcases List.mem_cons.mp hit with h | h
          · subst h; exact hc'
          · exact hb it h⟩
      refine ⟨hres ▸ hfront, fun hcat => absurd hcat (by simp [hc']), fun _ _ => ?_,
        fun _ hpf => absurd hp (by simp [hpf]), ?_⟩
      · rw [hres, htw.1, htw.2]
      · intro l1 x l2 y l3 heq hy
        exact front_no_noncat_before_cat catRx a (item :: b) l1 x l2 y l3 ha
          (by
            intro it hit
            rcases List.mem_cons.mp hit with h | h
            · subst h; exact hc'
            · exact hb it h) (by rw [← heq, hres]) hy
    · have hp' : prodRx item.url = false := by simpa using hp
      have hres : enqueuePreferred false catRx prodRx item (a ++ b) =
          (a ++ b) ++ [item] := by
        simp [enqueuePreferred, hne, hc', hp']
      have hfront : CatsFront catRx ((a ++ b) ++ [item]) :=
        ⟨a, b ++ [item], by simp, ha, by
          intro it hit
          rcases List.mem_append.mp hit with h | h
          · exact hb it h
          · simp at h; subst h; exact hc'⟩
      refine ⟨hres ▸ hfront, fun hcat => absurd hcat (by simp [hc']),
        fun _ hpt => absurd hpt (by simp [hp']), fun _ _ => hres, ?_⟩
      intro l1 x l2 y l3 heq hy
      exact front_no_noncat_before_cat catRx a (b ++ [item]) l1 x l2 y l3 ha
        (by
          intro it hit
          rcases List.mem_append.mp hit with h | h
          · exact hb it h
          · simp at h; subst h; exact hc') (by rw [← heq, hres]; simp) hy

/-- **C5** (witness).  The placement rules evaluated on a concrete frontier:
a category item jumps the whole queue, a product item lands after the
category run and before the normal item. -/
theorem enqueue_preferred_priority_witness :
    CatsFront (fun u => containsCI "catalog" u)
      (enqueuePreferred false (fun u => containsCI "catalog" u)
        (fun u => containsCI "item" u)
        { url := "https://s.test/item-7.html", depth := 1 }
        [{ url := "https://s.test/catalog-a", depth := 0 },
         { url := "https://s.test/about", depth := 0 }]) ∧
    enqueuePreferred false (fun u => containsCI "catalog" u) (fun u => containsCI "item" u)
        { url := "https://s.test/item-7.html", depth := 1 }
        [{ url := "https://s.test/catalog-a", depth := 0 },
         { url := "https://s.test/about", depth := 0 }] =
      [{ url := "https://s.test/catalog-a", depth := 0 },
       { url := "https://s.test/item-7.html", depth := 1 },
       { url := "https://s.test/about", depth := 0 }] := by
  have h := enqueue_preferred_priority (fun u => containsCI "catalog" u)
    (fun u => containsCI "item" u)
    { url := "https://s.test/item-7.html", depth := 1 }
    [{ url := "https://s.test/catalog-a", depth := 0 },
     { url := "https://s.test/about", depth := 0 }]
    ⟨[{ url := "https://s.test/catalog-a", depth := 0 }],
     [{ url := "https://s.test/about", depth := 0 }], rfl, by decide, by decide⟩
    (by decide)
  refine ⟨h.1, ?_⟩
  rw [h.2.2.1 (by decide) (by decide)]
  decide

/-! ### Crawl-run invariants (C3, C9) -/

theorem mlookup_mset (m : List (String × α)) (k u : String) (v : α) :
    mlookup (mset m k v) u = if u = k then some v else mlookup m u := by
  induction m with
  | nil =>
    by_cases h : u = k
    · subst h; simp [mset, mlookup, List.find?]
    · have hku : (k == u) = false := by
        rw [beq_eq_false_iff_ne]; exact fun hx => h hx.symm
      simp [mset, mlookup, List.find?, hku, h]
  | cons kv rest ih =>
    by_cases hk : kv.1 = k
    · by_cases h : u = k
      · subst h
        simp [mset, mlookup, List.find?, beq_iff_eq.mpr hk]
      · have hku : (k == u) = false := by
          rw [beq_eq_false_iff_ne]; exact fun hx => h hx.symm
        have hkvu : (kv.1 == u) = false := by
          rw [beq_eq_false_iff_ne]; exact fun hx => h (hx.symm.trans hk)
        simp [mset, mlookup, List.find?, beq_iff_eq.mpr hk, hku, hkvu, h]
    · have hbk : (kv.1 == k) = false := by rw [beq_eq_false_iff_ne]; exact hk
      by_cases h2 : kv.1 = u
      · have hne : ¬ u = k := fun hx => hk (h2.trans hx)
        simp [mset, mlookup, List.find?, hbk, beq_iff_eq.mpr h2, hne]
      · have hbu : (kv.1 == u) = false := by rw [beq_eq_false_iff_ne]; exact h2
        simp only [mset, hbk, Bool.false_eq_true, if_false]
        simp only [mlookup, List.find?, hbu] at ih ⊢
        exact ih

theorem enqueue_map_perm (quick : Bool) (catRx prodRx : String → Bool)
    (item : FrontierItem) (q : List FrontierItem) (hne : item.url ≠ "") :
    List.Perm ((enqueuePreferred quick catRx prodRx item q).map FrontierItem.url)
      (item.url :: q.map FrontierItem.url) := by
  rcases Bool.eq_false_or_eq_true quick with hq | hq
  · subst hq
    have hres : (enqueuePreferred true catRx prodRx item q).map FrontierItem.url =
        q.map FrontierItem.url ++ [item.url] := by
      simp [enqueuePreferred, hne]
    rw [hres]
    exact List.perm_append_singleton _ _
  · subst hq
    by_cases hc : catRx item.url
    · simp [enqueuePreferred, hne, hc]
    · have hc' : catRx item.url = false := by simpa using hc
      by_cases hp : prodRx item.url
      · have hres : enqueuePreferred false catRx prodRx item q =
            q.take (firstNonCatIdx catRx q) ++ item :: q.drop (firstNonCatIdx catRx q) := by
          simp [enqueuePreferred, hne, hc', hp]
        rw [hres, List.map_append, List.map_cons]
        have h1 : List.Perm
            ((q.take (firstNonCatIdx catRx q)).map FrontierItem.url ++
              item.url :: (q.drop (firstNonCatIdx catRx q)).map FrontierItem.url)
            (item.url :: ((q.take (firstNonCatIdx catRx q)).map FrontierItem.url ++
              (q.drop (firstNonCatIdx catRx q)).map FrontierItem.url)) := List.perm_middle
        rwa [← List.map_append, List.take_append_drop] at h1
      · have hp' : prodRx item.url = false := by simpa using hp
        have hres : enqueuePreferred false catRx prodRx item q = q ++ [item] := by
          simp [enqueuePreferred, hne, hc', hp']
        rw [hres, List.map_append, List.map_singleton]
        exact List.perm_append_singleton _ _

/-- The inductive invariant of one crawl run: every queued, visited or
ever-enqueued URL has been marked seen; the ghost enqueue log has no
duplicates (each URL enters the frontier at most once); the visited list
and the live queue are jointly duplicate-free; recorded depths belong to
seen URLs; and every visited URL rendered successfully. -/
structure CrawlInv (render : String → Option (List String)) (st : CrawlState) : Prop where
  queue_seen : ∀ it ∈ st.queue, it.url ∈ st.seen
  visited_seen : ∀ u ∈ st.visitedOrder, u ∈ st.seen
  log_seen : ∀ u ∈ st.enqueueLog, u ∈ st.seen
  log_nodup : st.enqueueLog.Nodup
  vq_nodup : (st.visitedOrder ++ st.queue.map FrontierItem.url).Nodup
  depths_seen : ∀ u d, mlookup st.depths u = some d → u ∈ st.seen
  visited_ok : ∀ u ∈ st.visitedOrder, render u ≠ none

theorem inv_extend_seen (render : String → Option (List String)) (st : CrawlState)
    (inv : CrawlInv render st) (n : String) (d : Nat) (e : List (String × String)) :
    CrawlInv render { st with seen := st.seen ++ [n], depths := mset st.depths n d,
                              edges := e } := by
  refine ⟨?_, ?_, ?_, inv.log_nodup, inv.vq_nodup, ?_, inv.visited_ok⟩
  · exact fun it hit => List.mem_append_left _ (inv.queue_seen it hit)
  · exact fun u hu => List.mem_append_left _ (inv.visited_seen u hu)
  · exact fun u hu => List.mem_append_left _ (inv.log_seen u hu)
  · intro u du hl
    rw [mlookup_mset] at hl
    by_cases h : u = n
    · subst h; simp
    · exact List.mem_append_left _ (inv.depths_seen u du (by rwa [if_neg h] at hl))

theorem inv_stEnqueue (cfg : CrawlConfig) (render : String → Option (List String))
    (st : CrawlState) (inv : CrawlInv render st) (item : FrontierItem)
    (hseen : item.url ∈ st.seen)
    (hnv : item.url ∉ st.visitedOrder)
    (hnq : item.url ∉ st.queue.map FrontierItem.url)
    (hnl : item.url ∉ st.enqueueLog) :
    CrawlInv render (stEnqueue cfg st item) := by
  unfold stEnqueue
  by_cases hne : item.url = ""
  · rw [if_pos hne]; exact inv
  · rw [if_neg hne]
    have hperm := enqueue_map_perm cfg.quick cfg.catRx cfg.prodRx item st.queue hne
    refine ⟨?_, inv.visited_seen, ?_, ?_, ?_, inv.depths_seen, inv.visited_ok⟩
    · intro it hit
      have hmm : it.url ∈ (enqueuePreferred cfg.quick cfg.catRx cfg.prodRx item st.queue).map
          FrontierItem.url := List.mem_map_of_mem _ hit
      rcases List.mem_cons.mp (hperm.subset hmm) with h | h
      · exact h ▸ hseen
      · obtain ⟨it2, hit2, hu⟩ := List.mem_map.mp h
        exact hu ▸ inv.queue_seen it2 hit2
    · intro u hu
      rcases List.mem_append.mp hu with h | h
      · exact inv.log_seen u h
      · simp at h; exact h ▸ hseen
    · have hpl : List.Perm (st.enqueueLog ++ [item.url]) (item.url :: st.enqueueLog) :=
        List.perm_append_singleton _ _
      rw [hpl.nodup_iff, List.nodup_cons]
      exact ⟨hnl, inv.log_nodup⟩
    · have hp2 : List.Perm
          (st.visitedOrder ++ (enqueuePreferred cfg.quick cfg.catRx cfg.prodRx item
            st.queue).map FrontierItem.url)
          (st.visitedOrder ++ item.url :: st.queue.map FrontierItem.url) :=
        List.Perm.append_left _ hperm
      have hp3 : List.Perm
          (st.visitedOrder ++ item.url :: st.queue.map FrontierItem.url)
          (item.url :: (st.visitedOrder ++ st.queue.map FrontierItem.url)) :=
        List.perm_middle
      rw [(hp2.trans hp3).nodup_iff, List.nodup_cons]
      refine ⟨?_, inv.vq_nodup⟩
      intro hmem
      rcases List.mem_append.mp hmem with h | h
      · exact hnv h
      · exact hnq h

/-- Step relation used to chain invariant preservation with stability of
recorded depths. -/
def InvStep (render : String → Option (List String)) (st st2 : CrawlState) : Prop :=
  CrawlInv render st2 ∧ ∀ u d, mlookup st.depths u = some d → mlookup st2.depths u = some d

theorem invStep_id (render : String → Option (List String)) (st : CrawlState)
    (inv : CrawlInv render st) : InvStep render st st := ⟨inv, fun _ _ h => h⟩

theorem stEnqueue_depths (cfg : CrawlConfig) (st : CrawlState) (item : FrontierItem) :
    (stEnqueue cfg st item).depths = st.depths := by
  unfold stEnqueue
  split <;> rfl

theorem foldl_invStep (render : String → Option (List String))
    (f : CrawlState → γ → CrawlState)
    (hf : ∀ st x, CrawlInv render st → InvStep render st (f st x)) :
    ∀ (l : List γ) (st : CrawlState), CrawlInv render st →
      InvStep render st (List.foldl f st l)
  | [], st, inv => invStep_id render st inv
  | x :: xs, st, inv => by
    obtain ⟨inv1, mono1⟩ := hf st x inv
    obtain ⟨inv2, mono2⟩ := foldl_invStep render f hf xs (f st x) inv1
    exact ⟨inv2, fun u d h => mono2 u d (mono1 u d h)⟩

theorem insertSorted_perm (le : α → α → Bool) (x : α) :
    ∀ l : List α, List.Perm (insertSorted le x l) (x :: l)
  | [] => .refl _
  | y :: ys => by
    unfold insertSorted
    split
    · exact .refl _
    · exact ((insertSorted_perm le x ys).cons y).trans (List.Perm.swap x y ys)

theorem isort_perm (le : α → α → Bool) : ∀ l : List α, List.Perm (isort le l) l
  | [] => .refl _
  | x :: xs => (insertSorted_perm le x (isort le xs)).trans ((isort_perm le xs).cons x)

/-- `addSeed` preserves the invariant and existing depth records. -/
theorem inv_addSeed (cfg : CrawlConfig) (render : String → Option (List String))
    (st : CrawlState) (inv : CrawlInv render st) (u : String) (d : Nat) (t : String) :
    InvStep render st (addSeed cfg st u d t) := by
  unfold addSeed
  cases hn : normalizeURL cfg.norm u (rootHostOf cfg) with
  | none => exact invStep_id render st inv
  | some n =>
    dsimp only
    by_cases hc : st.seen.contains n
    · rw [if_pos hc]; exact invStep_id render st inv
    · rw [if_neg hc]
      have hnotin : n ∉ st.seen := fun hm => hc (List.elem_iff.mpr hm)
      refine ⟨inv_stEnqueue cfg render _ (inv_extend_seen render st inv n d st.edges) _
        (List.mem_append_right _ (by simp))
        (fun hm => hnotin (inv.visited_seen n hm))
        (fun hm => hnotin (by
          obtain ⟨it2, hit2, hu⟩ := List.mem_map.mp hm
          have hu2 : it2.url = n := hu
          exact hu2 ▸ inv.queue_seen it2 hit2))
        (fun hm => hnotin (inv.log_seen n hm)), ?_⟩
      intro u2 d2 h2
      rw [stEnqueue_depths, mlookup_mset,
        if_neg (fun hx : u2 = n => hnotin (hx ▸ inv.depths_seen u2 d2 h2))]
      exact h2

/-- The plain seeding step preserves the invariant and depth records. -/
theorem inv_seedPlain (cfg : CrawlConfig) (render : String → Option (List String))
    (st : CrawlState) (inv : CrawlInv render st) (u : String) :
    InvStep render st (seedPlain cfg st u) := by
  unfold seedPlain
  cases hn : normalizeURL cfg.norm u (rootHostOf cfg) with
  | none => exact invStep_id render st inv
  | some n =>
    dsimp only
    by_cases hc : st.seen.contains n
    · rw [if_pos hc]; exact invStep_id render st inv
    · rw [if_neg hc]
      have hnotin : n ∉ st.seen := fun hm => hc (List.elem_iff.mpr hm)
      refine ⟨inv_stEnqueue cfg render _ (inv_extend_seen render st inv n 0 st.edges) _
        (List.mem_append_right _ (by simp))
        (fun hm => hnotin (inv.visited_seen n hm))
        (fun hm => hnotin (by
          obtain ⟨it2, hit2, hu⟩ := List.mem_map.mp hm
          have hu2 : it2.url = n := hu
          exact hu2 ▸ inv.queue_seen it2 hit2))
        (fun hm => hnotin (inv.log_seen n hm)), ?_⟩
      intro u2 d2 h2
      rw [stEnqueue_depths, mlookup_mset,
        if_neg (fun hx : u2 = n => hnotin (hx ▸ inv.depths_seen u2 d2 h2))]
      exact h2

/-- Link extraction preserves the invariant and depth records. -/
theorem inv_extractLink (cfg : CrawlConfig) (render : String → Option (List String))
    (item : FrontierItem) (st : CrawlState) (raw : String) (inv : CrawlInv render st) :
    InvStep render st (extractLink cfg item st raw) := by
  unfold extractLink
  by_cases hraw : raw = ""
  · rw [if_pos hraw]; exact invStep_id render st inv
  · rw [if_neg hraw]
    cases hr : resolveURL raw item.url with
    | none => exact invStep_id render st inv
    | some r =>
      dsimp only
      cases hn : normalizeURL cfg.norm (serializeURL r) (rootHostOf cfg) with
      | none => exact invStep_id render st inv
      | some norm =>
        dsimp only
        have inv2 : CrawlInv render { st with edges := st.edges ++ [(item.url, norm)] } :=
          ⟨inv.queue_seen, inv.visited_seen, inv.log_seen, inv.log_nodup, inv.vq_nodup,
           inv.depths_seen, inv.visited_ok⟩
        by_cases hc : st.seen.contains norm
        · rw [if_pos hc]
          exact ⟨inv2, fun _ _ h => h⟩
        · rw [if_neg hc]
          have hnotin : norm ∉ st.seen := fun hm => hc (List.elem_iff.mpr hm)
          have inv3 : CrawlInv render
              { st with edges := st.edges ++ [(item.url, norm)],
                        seen := st.seen ++ [norm],
                        depths := mset st.depths norm (item.depth + 1) } :=
            inv_extend_seen render st inv norm (item.depth + 1) (st.edges ++ [(item.url, norm)])
          have hmono : ∀ u2 d2, mlookup st.depths u2 = some d2 →
              mlookup (mset st.depths norm (item.depth + 1)) u2 = some d2 := by
            intro u2 d2 h2
            rw [mlookup_mset,
              if_neg (fun hx : u2 = norm => hnotin (hx ▸ inv.depths_seen u2 d2 h2))]
            exact h2
          have hseen2 : norm ∈ st.seen ++ [norm] := List.mem_append_right _ (by simp)
          have hnv2 : norm ∉ st.visitedOrder := fun hm => hnotin (inv.visited_seen norm hm)
          have hnq2 : norm ∉ st.queue.map FrontierItem.url := fun hm => hnotin (by
            obtain ⟨it2, hit2, hu⟩ := List.mem_map.mp hm
            exact hu ▸ inv.queue_seen it2 hit2)
          have hnl2 : norm ∉ st.enqueueLog := fun hm => hnotin (inv.log_seen norm hm)
          by_cases hgate : item.depth + 1 ≤ cfg.maxDepth ∧
              st.visitedOrder.length < cfg.maxPages
          · rw [if_pos hgate]
            by_cases hq : cfg.quick ∧ cfg.plan = none ∧ cfg.catRx item.url ∧
                (cfg.prodRx norm ∧ ¬ cfg.catRx norm)
            · rw [if_pos hq]
              refine ⟨inv_stEnqueue cfg render _ inv3 _ hseen2 hnv2 hnq2 hnl2, ?_⟩
              intro u2 d2 h2
              rw [stEnqueue_depths]
              exact hmono u2 d2 h2
            · rw [if_neg hq]
              refine ⟨inv_stEnqueue cfg render _ inv3 _ hseen2 hnv2 hnq2 hnl2, ?_⟩
              intro u2 d2 h2
              rw [stEnqueue_depths]
              exact hmono u2 d2 h2
          · rw [if_neg hgate]
            exact ⟨inv3, hmono⟩

/-- `processItem` preserves the invariant and depth records, provided the
item was just dequeued (its URL is seen but neither already visited nor
still queued). -/
theorem inv_processItem (cfg : CrawlConfig) (render : String → Option (List String))
    (stop : Nat → Bool) (st : CrawlState) (item : FrontierItem)
    (inv : CrawlInv render st) (hseen : item.url ∈ st.seen)
    (hnv : item.url ∉ st.visitedOrder) (hnq : item.url ∉ st.queue.map FrontierItem.url) :
    InvStep render st (processItem cfg render stop st item) := by
  unfold processItem
  by_cases h1 : cfg.maxPages ≤ st.pagesCrawled
  · rw [if_pos h1]; exact invStep_id render st inv
  · rw [if_neg h1]
    by_cases h2 : cfg.maxDepth < item.depth
    · rw [if_pos h2]; exact invStep_id render st inv
    · rw [if_neg h2]
      dsimp only
      by_cases h3 : stop st.clock
      · rw [if_pos h3]
        exact ⟨⟨inv.queue_seen, inv.visited_seen, inv.log_seen, inv.log_nodup, inv.vq_nodup,
          inv.depths_seen, inv.visited_ok⟩, fun _ _ h => h⟩
      · rw [if_neg h3]
        cases hrnd : render item.url with
        | none =>
          exact ⟨⟨inv.queue_seen, inv.visited_seen, inv.log_seen, inv.log_nodup, inv.vq_nodup,
            inv.depths_seen, inv.visited_ok⟩, fun _ _ h => h⟩
        | some hrefs =>
          dsimp only
          have hvnodup : ((st.visitedOrder ++ [item.url]) ++
              st.queue.map FrontierItem.url).Nodup := by
            have heq : (st.visitedOrder ++ [item.url]) ++ st.queue.map FrontierItem.url =
                st.visitedOrder ++ item.url :: st.queue.map FrontierItem.url := by simp
            rw [heq, (List.perm_middle).nodup_iff, List.nodup_cons]
            refine ⟨fun hm => ?_, inv.vq_nodup⟩
            rcases List.mem_append.mp hm with h | h
            · exact hnv h
            · exact hnq h
          have inv1 : CrawlInv render
              { st with clock := st.clock + 1,
                        visitedOrder := st.visitedOrder ++ [item.url],
                        pagesCrawled := st.pagesCrawled + 1 } := by
            refine ⟨inv.queue_seen, ?_, inv.log_seen, inv.log_nodup, hvnodup,
              inv.depths_seen, ?_⟩
            · intro u hu
              rcases List.mem_append.mp hu with h | h
              · exact inv.visited_seen u h
              · simp at h; exact h ▸ hseen
            · intro u hu
              rcases List.mem_append.mp hu with h | h
              · exact inv.visited_ok u h
              · simp at h; subst h; rw [hrnd]; exact fun hx => Option.noConfusion hx
          by_cases h4 : st.pagesCrawled + 1 < cfg.maxPages ∧ item.depth < cfg.maxDepth
          · rw [if_pos h4]
            exact foldl_invStep render (extractLink cfg item)
              (fun s x i => inv_extractLink cfg render item s x i) hrefs _ inv1
          · rw [if_neg h4]
            exact ⟨inv1, fun _ _ h => h⟩

/-- The post-fetch quota accounting touches only the counters and the
product-category map. -/
theorem bumpQuota_fields (cfg : CrawlConfig) (st : CrawlState) (item : FrontierItem) :
    (bumpQuota cfg st item).queue = st.queue ∧
    (bumpQuota cfg st item).seen = st.seen ∧
    (bumpQuota cfg st item).visitedOrder = st.visitedOrder ∧
    (bumpQuota cfg st item).depths = st.depths ∧
    (bumpQuota cfg st item).enqueueLog = st.enqueueLog ∧
    (bumpQuota cfg st item).halted = st.halted ∧
    (bumpQuota cfg st item).clock = st.clock := by
  unfold bumpQuota
  by_cases hp : (cfg.prodRx item.url && ! cfg.catRx item.url) = true
  · rw [if_neg (by simp [hp])]
    dsimp only
    cases cfg.plan with
    | some p => exact ⟨rfl, rfl, rfl, rfl, rfl, rfl, rfl⟩
    | none =>
      by_cases hq : cfg.quick
      · rw [if_pos hq]
        by_cases hcond : (mlookup st.productCategoryMap item.url).isNone = true ∧
            item.originCategory.getD "__global__" ≠ "__global__"
        · rw [if_pos hcond]; exact ⟨rfl, rfl, rfl, rfl, rfl, rfl, rfl⟩
        · rw [if_neg hcond]; exact ⟨rfl, rfl, rfl, rfl, rfl, rfl, rfl⟩
      · rw [if_neg hq]
        exact ⟨rfl, rfl, rfl, rfl, rfl, rfl, rfl⟩
  · rw [if_pos hp]
    exact ⟨rfl, rfl, rfl, rfl, rfl, rfl, rfl⟩

/-- Transport the invariant across quota accounting. -/
theorem inv_bumpQuota (cfg : CrawlConfig) (render : String → Option (List String))
    (st : CrawlState) (item : FrontierItem) (inv : CrawlInv render st) :
    InvStep render st (bumpQuota cfg st item) := by
  obtain ⟨hq, hs, hv, hd, hl, -, -⟩ := bumpQuota_fields cfg st item
  refine ⟨⟨?_, ?_, ?_, ?_, ?_, ?_, ?_⟩, ?_⟩
  · rw [hq, hs]; exact inv.queue_seen
  · rw [hv, hs]; exact inv.visited_seen
  · rw [hl, hs]; exact inv.log_seen
  · rw [hl]; exact inv.log_nodup
  · rw [hv, hq]; exact inv.vq_nodup
  · rw [hd, hs]; exact inv.depths_seen
  · rw [hv]; exact inv.visited_ok
  · intro u d h; rw [hd]; exact h

/-- One loop iteration preserves the invariant and depth records. -/
theorem inv_step1 (cfg : CrawlConfig) (render : String → Option (List String))
    (stop : Nat → Bool) (st : CrawlState) (inv : CrawlInv render st) :
    InvStep render st (step1 cfg render stop st) := by
  unfold step1
  by_cases hh : st.halted
  · rw [if_pos hh]; exact invStep_id render st inv
  · rw [if_neg hh]
    by_cases he : st.queue = [] ∨ cfg.maxPages ≤ st.pagesCrawled
    · rw [if_pos he]
      exact ⟨⟨inv.queue_seen, inv.visited_seen, inv.log_seen, inv.log_nodup, inv.vq_nodup,
        inv.depths_seen, inv.visited_ok⟩, fun _ _ h => h⟩
    · rw [if_neg he]
      dsimp only
      by_cases hs : stop st.clock
      · rw [if_pos hs]
        exact ⟨⟨inv.queue_seen, inv.visited_seen, inv.log_seen, inv.log_nodup, inv.vq_nodup,
          inv.depths_seen, inv.visited_ok⟩, fun _ _ h => h⟩
      · rw [if_neg hs]
        have hqperm : List.Perm
            ((if cfg.quick then sortQueue st.queue else st.queue).map FrontierItem.url)
            (st.queue.map FrontierItem.url) := by
          by_cases hqk : cfg.quick
          · rw [if_pos hqk]; exact (isort_perm itemLe st.queue).map FrontierItem.url
          · rw [if_neg hqk]
        cases hmq : (if cfg.quick then sortQueue st.queue else st.queue) with
        | nil =>
          exact ⟨⟨inv.queue_seen, inv.visited_seen, inv.log_seen, inv.log_nodup, inv.vq_nodup,
            inv.depths_seen, inv.visited_ok⟩, fun _ _ h => h⟩
        | cons item rest =>
          dsimp only
          rw [hmq] at hqperm
          have hvq2 : (st.visitedOrder ++ item.url :: rest.map FrontierItem.url).Nodup := by
            have hp2 : List.Perm
                (st.visitedOrder ++ item.url :: rest.map FrontierItem.url)
                (st.visitedOrder ++ st.queue.map FrontierItem.url) :=
              List.Perm.append_left _ (by simpa using hqperm)
            exact hp2.nodup_iff.mpr inv.vq_nodup
          have hdecomp := (@List.perm_middle _ item.url st.visitedOrder
            (rest.map FrontierItem.url)).nodup_iff.mp hvq2
          rw [List.nodup_cons] at hdecomp
          have hnv : item.url ∉ st.visitedOrder :=
            fun hm => hdecomp.1 (List.mem_append_left _ hm)
          have hnq : item.url ∉ rest.map FrontierItem.url :=
            fun hm => hdecomp.1 (List.mem_append_right _ hm)
          have hqsub : ∀ u, u ∈ item.url :: rest.map FrontierItem.url → u ∈ st.seen := by
            intro u hu
            have : u ∈ st.queue.map FrontierItem.url := hqperm.subset hu
            obtain ⟨it2, hit2, hu2⟩ := List.mem_map.mp this
            exact hu2 ▸ inv.queue_seen it2 hit2
          have inv2 : CrawlInv render { st with clock := st.clock + 1, queue := rest } := by
            refine ⟨?_, inv.visited_seen, inv.log_seen, inv.log_nodup, ?_, inv.depths_seen,
              inv.visited_ok⟩
            · intro it hit
              exact hqsub it.url (List.mem_cons_of_mem _ (List.mem_map_of_mem _ hit))
            · exact hdecomp.2
          by_cases hx : exceedsProductQuotas cfg { st with clock := st.clock + 1, queue := rest }
              item.url
          · rw [if_pos hx]
            exact ⟨inv2, fun _ _ h => h⟩
          · rw [if_neg hx]
            obtain ⟨invP, monoP⟩ := inv_processItem cfg render stop
              { st with clock := st.clock + 1, queue := rest } item inv2
              (hqsub item.url (by simp)) hnv hnq
            obtain ⟨invB, monoB⟩ := inv_bumpQuota cfg render _ item invP
            exact ⟨invB, fun u d h => monoB u d (monoP u d h)⟩

theorem inv_emptyCrawlState (cfg : CrawlConfig) (render : String → Option (List String)) :
    CrawlInv render (emptyCrawlState cfg) := by
  refine ⟨?_, ?_, ?_, ?_, ?_, ?_, ?_⟩ <;> simp [emptyCrawlState, mlookup]

/-- The seeded initial state satisfies the invariant. -/
theorem inv_seedState (cfg : CrawlConfig) (render : String → Option (List String)) :
    CrawlInv render (seedState cfg) := by
  have inv0 := inv_emptyCrawlState cfg render
  unfold seedState
  cases cfg.plan with
  | none => exact (foldl_invStep render (seedPlain cfg)
      (fun s x i => inv_seedPlain cfg render s i x) cfg.startUrls _ inv0).1
  | some plan =>
    dsimp only
    have hstep2 : ∀ (X : Option String) (st : CrawlState), CrawlInv render st →
        CrawlInv render (plan.productList.foldl (fun st p => addSeed cfg st p 1 "product")
          (plan.categories.foldl
            (fun st c => if X = some c then st else addSeed cfg st c 0 "category") st)) := by
      intro X st hst
      have h2 := foldl_invStep render
        (fun st c => if X = some c then st else addSeed cfg st c 0 "category")
        (fun s x i => by
          dsimp only
          by_cases h : X = some x
          · rw [if_pos h]; exact invStep_id render s i
          · rw [if_neg h]; exact inv_addSeed cfg render s i x 0 "category")
        plan.categories st hst
      exact (foldl_invStep render (fun st p => addSeed cfg st p 1 "product")
        (fun s x i => inv_addSeed cfg render s i x 1 "product") plan.productList _ h2.1).1
    cases hro : normalizeURL cfg.norm (cfg.startUrls.headI) (rootHostOf cfg) with
    | none => exact hstep2 none _ inv0
    | some r => exact hstep2 (some r) _ (inv_addSeed cfg render _ inv0 r 0 "category").1

theorem inv_runSteps (cfg : CrawlConfig) (render : String → Option (List String))
    (stop : Nat → Bool) :
    ∀ (n : Nat) (st : CrawlState), CrawlInv render st →
      InvStep render st (runSteps cfg render stop n st)
  | 0, st, inv => invStep_id render st inv
  | n + 1, st, inv => by
    obtain ⟨i1, m1⟩ := inv_step1 cfg render stop st inv
    obtain ⟨i2, m2⟩ := inv_runSteps cfg render stop n (step1 cfg render stop st) i1
    exact ⟨i2, fun u d h => m2 u d (m1 u d h)⟩

theorem inv_crawlRun (cfg : CrawlConfig) (render : String → Option (List String))
    (stop : Nat → Bool) (fuel : Nat) : CrawlInv render (crawlRun cfg render stop fuel) :=
  (inv_runSteps cfg render stop fuel (seedState cfg) (inv_seedState cfg render)).1

theorem runSteps_add (cfg : CrawlConfig) (render : String → Option (List String))
    (stop : Nat → Bool) :
    ∀ (m n : Nat) (st : CrawlState),
      runSteps cfg render stop (m + n) st =
        runSteps cfg render stop n (runSteps cfg render stop m st)
  | 0, n, st => by rw [Nat.zero_add]; rfl
  | m + 1, n, st => by
    have h : m + 1 + n = (m + n) + 1 := by omega
    rw [h]
    show runSteps cfg render stop (m + n) (step1 cfg render stop st) =
      runSteps cfg render stop n (runSteps cfg render stop m (step1 cfg render stop st))
    exact runSteps_add cfg render stop m n (step1 cfg render stop st)

/-- **C9** (confirmed).  Throughout every crawl run: the ghost log of all
frontier insertions has no duplicate URL (each normalized URL is enqueued at
most once — the seen-set check guards every enqueue), the visited list and
live frontier are jointly duplicate-free, and a depth once recorded for a
URL survives unchanged to every later point of the run. -/
theorem frontier_once_depth_stable (cfg : CrawlConfig)
    (render : String → Option (List String)) (stop : Nat → Bool) :
    (∀ fuel, (crawlRun cfg render stop fuel).enqueueLog.Nodup) ∧
    (∀ fuel, ((crawlRun cfg render stop fuel).visitedOrder ++
      (crawlRun cfg render stop fuel).queue.map FrontierItem.url).Nodup) ∧
    (∀ fuel k u d, mlookup (crawlRun cfg render stop fuel).depths u = some d →
      mlookup (crawlRun cfg render stop (fuel + k)).depths u = some d) := by
  refine ⟨fun fuel => (inv_crawlRun cfg render stop fuel).log_nodup,
    fun fuel => (inv_crawlRun cfg render stop fuel).vq_nodup, ?_⟩
  intro fuel k u d h
  unfold crawlRun at h ⊢
  rw [runSteps_add cfg render stop fuel k]
  exact (inv_runSteps cfg render stop k _
    (inv_runSteps cfg render stop fuel _ (inv_seedState cfg render)).1).2 u d h

/-- **C9** (witness).  Depth stability applied to a concrete one-page run:
the root's recorded depth 0 survives three further loop iterations. -/
theorem frontier_once_depth_stable_witness :
    mlookup (crawlRun onePageCfg (fun _ => some []) neverStop 1).depths
      "https://a.test/" = some 0 ∧
    mlookup (crawlRun onePageCfg (fun _ => some []) neverStop (1 + 3)).depths
      "https://a.test/" = some 0 :=
  ⟨by decide, (frontier_once_depth_stable onePageCfg (fun _ => some []) neverStop).2.2
    1 3 "https://a.test/" 0 (by decide)⟩

/-- Fixture for C3: the first start URL fails to render, the second
succeeds. -/
def failFirstCfg : CrawlConfig :=
  { startUrls := ["https://a.test/fail", "https://a.test/ok"] }

def failFirstRender (u : String) : Option (List String) :=
  if u = "https://a.test/fail" then none else some []

/-- **C3** (counterexample).  A dequeued item whose rendering fails leaves
no VisitRecord at all: in a run seeding `fail` (whose render is a failure)
and `ok`, the frontier fully drains — so `fail` was dequeued and its fetch
attempted — yet the visit sequence is `[ok]`: no record with an error
outcome exists for `fail`, and the fetched-pages output simply omits it,
refuting "a VisitRecord with outcome error is appended for that page". -/
theorem render_failure_leaves_no_record :
    failFirstRender "https://a.test/fail" = none ∧
    "https://a.test/fail" ∈ (seedState failFirstCfg).queue.map FrontierItem.url ∧
    (crawlRun failFirstCfg failFirstRender neverStop 6).queue = [] ∧
    (crawlRun failFirstCfg failFirstRender neverStop 6).halted = true ∧
    (crawlRun failFirstCfg failFirstRender neverStop 6).visitedOrder =
      ["https://a.test/ok"] := by
  refine ⟨by decide, by decide, by decide, by decide, by decide⟩

/-- **C3** (amended).  A rendering failure during DRAINING is caught
per-item: the loop neither aborts nor records anything for the failed page —
the step completes with `halted` still false, `visitedOrder` unchanged and
the frontier advanced past the item — and over any whole run the
VisitRecord sequence (`visitedOrder`, the source of urls.txt) holds exactly
the successfully rendered pages, each at most once, in fetch order. -/
theorem render_failure_caught_and_unrecorded (cfg : CrawlConfig)
    (render : String → Option (List String)) (stop : Nat → Bool) (st : CrawlState)
    (item : FrontierItem) (rest : List FrontierItem)
    (hquick : cfg.quick = false) (hh : st.halted = false) (hq : st.queue = item :: rest)
    (hbudget : st.pagesCrawled < cfg.maxPages) (hdepth : item.depth ≤ cfg.maxDepth)
    (hs1 : stop st.clock = false) (hs2 : stop (st.clock + 1) = false)
    (hgate : exceedsProductQuotas cfg { st with clock := st.clock + 1, queue := rest }
      item.url = false)
    (hfail : render item.url = none) :
    ((step1 cfg render stop st).halted = false ∧
     (step1 cfg render stop st).visitedOrder = st.visitedOrder ∧
     (step1 cfg render stop st).queue = rest) ∧
    (∀ fuel u, u ∈ (crawlRun cfg render stop fuel).visitedOrder → render u ≠ none) ∧
    (∀ fuel, (crawlRun cfg render stop fuel).visitedOrder.Nodup) := by
  refine ⟨?_, fun fuel u hu => (inv_crawlRun cfg render stop fuel).visited_ok u hu,
    fun fuel => (inv_crawlRun cfg render stop fuel).vq_nodup.of_append_left⟩
  unfold step1
  rw [if_neg (by simp [hh])]
  rw [if_neg (by
    rintro (hnil | hbad)
    · rw [hq] at hnil; exact List.noConfusion hnil
    · omega)]
  dsimp only
  rw [if_neg (by simp [hs1])]
  rw [hquick]
  simp only [Bool.false_eq_true, if_false]
  rw [hq]
  dsimp only
  rw [if_neg (by simp [hgate])]
  unfold processItem
  rw [if_neg (show ¬ cfg.maxPages ≤ st.pagesCrawled by omega)]
  rw [if_neg (show ¬ cfg.maxDepth < item.depth by omega)]
  dsimp only
  rw [if_neg (show ¬ stop (st.clock + 1) = true by simp [hs2])]
  rw [hfail]
  obtain ⟨hbq, -, hbv, -, -, hbh, -⟩ := bumpQuota_fields cfg
    { st with clock := st.clock + 1 + 1, queue := rest } item
  exact ⟨hbh.trans hh, hbv, hbq⟩

/-- **C3** (witness).  The amended behaviour evaluated on the concrete
fixture: failing `fail` leaves the run alive with nothing recorded, and the
run's visit list holds only successfully rendered pages. -/
theorem render_failure_caught_witness :
    ((step1 failFirstCfg failFirstRender neverStop (seedState failFirstCfg)).halted = false ∧
     (step1 failFirstCfg failFirstRender neverStop
       (seedState failFirstCfg)).visitedOrder = [] ∧
     (step1 failFirstCfg failFirstRender neverStop (seedState failFirstCfg)).queue =
       [{ url := "https://a.test/ok", depth := 0 }]) ∧
    failFirstRender "https://a.test/ok" ≠ none :=
  ⟨(render_failure_caught_and_unrecorded failFirstCfg failFirstRender neverStop
      (seedState failFirstCfg)
      { url := "https://a.test/fail", depth := 0 }
      [{ url := "https://a.test/ok", depth := 0 }]
      rfl (by decide) (by decide) (by decide) (by decide) rfl rfl (by decide) rfl).1,
   (render_failure_caught_and_unrecorded failFirstCfg failFirstRender neverStop
      (seedState failFirstCfg)
      { url := "https://a.test/fail", depth := 0 }
      [{ url := "https://a.test/ok", depth := 0 }]
      rfl (by decide) (by decide) (by decide) (by decide) rfl rfl (by decide) rfl).2.1 6
      "https://a.test/ok" (by decide)⟩

/-! ### URL round-trip machinery (C7) -/

theorem mk_data (s : String) : String.mk s.data = s := by cases s; rfl

/-- Soundness of `takeUntil`: the split decomposes the input, the prefix
avoids the stop characters, and the remainder is empty or starts with
one. -/
theorem takeUntil_sound (stops : List Char) :
    ∀ l : List Char,
      l = (takeUntil stops l).1 ++ (takeUntil stops l).2 ∧
      (∀ c ∈ (takeUntil stops l).1, c ∉ stops) ∧
      ((takeUntil stops l).2 = [] ∨
        ∃ c cs, (takeUntil stops l).2 = c :: cs ∧ c ∈ stops) := by
  intro l
  induction l with
  | nil => simp [takeUntil]
  | cons c rest ih =>
    by_cases hc : stops.contains c
    · have hcm : c ∈ stops := List.elem_iff.mp hc
      rw [takeUntil]
      simp only [hc, if_true]
      exact ⟨rfl, by simp, Or.inr ⟨c, rest, rfl, hcm⟩⟩
    · have hcm : c ∉ stops := fun hm => hc (List.elem_iff.mpr hm)
      rw [takeUntil, if_neg hc]
      refine ⟨?_, ?_, ?_⟩
      · exact congrArg (List.cons c) ih.1
      · intro x hx
        rcases List.mem_cons.mp hx with h | h
        · exact h ▸ hcm
        · exact ih.2.1 x h
      · exact ih.2.2

/-- Reconstruction: `takeUntil` recovers a decomposition whose prefix avoids
the stops and whose remainder is empty or headed by a stop. -/
theorem takeUntil_recon (stops : List Char) :
    ∀ (a b : List Char), (∀ c ∈ a, c ∉ stops) →
      (b = [] ∨ ∃ c cs, b = c :: cs ∧ c ∈ stops) →
      takeUntil stops (a ++ b) = (a, b) := by
  intro a
  induction a with
  | nil =>
    intro b _ hb
    rcases hb with rfl | ⟨c, cs, rfl, hc⟩
    · rfl
    · rw [List.nil_append, takeUntil,
        if_pos (show stops.contains c = true from List.elem_iff.mpr hc)]
  | cons x xs ih =>
    intro b ha hb
    have hx : x ∉ stops := ha x (by simp)
    have hxc : stops.contains x = false := by
      rw [Bool.eq_false_iff]
      exact fun hm => hx (List.elem_iff.mp hm)
    rw [List.cons_append, takeUntil]
    simp only [hxc, Bool.false_eq_true, if_false]
    rw [ih b (fun c hc => ha c (List.mem_cons_of_mem _ hc)) hb]

/-- Well-formedness of the components of a parsed URL, as guaranteed by
`parseAbs` and preserved by `normalizeURL`'s transformations; exactly what
is needed for serialization to parse back to the same record. -/
structure URLWF (u : JSURL) : Prop where
  scheme_ne : u.scheme.data ≠ []
  scheme_alpha : (u.scheme.data.headI).isAlpha = true
  scheme_chars : ∀ c ∈ u.scheme.data, isSchemeChar c = true
  host_ne : u.host.data ≠ []
  host_chars : ∀ c ∈ u.host.data, c ≠ ':' ∧ c ≠ '/' ∧ c ≠ '?' ∧ c ≠ '#'
  port_chars : ∀ c ∈ u.port.data, c ≠ '/' ∧ c ≠ '?' ∧ c ≠ '#'
  port_shape : u.port.data = [] ∨ ∃ cs, u.port.data = ':' :: cs
  path_shape : ∃ cs, u.path.data = '/' :: cs
  path_chars : ∀ c ∈ u.path.data, c ≠ '?' ∧ c ≠ '#'
  search_shape : u.search.data = [] ∨ ∃ cs, u.search.data = '?' :: cs
  search_chars : ∀ c ∈ u.search.data, c ≠ '#'
  hash_shape : u.hash.data = [] ∨ ∃ cs, u.hash.data = '#' :: cs

theorem isSchemeChar_ne_colon (c : Char) (h : isSchemeChar c = true) : c ≠ ':' := by
  intro hc
  subst hc
  simp [isSchemeChar] at h

theorem takeUntil_cons_stop (stops : List Char) (c : Char) (l : List Char)
    (h : stops.contains c = true) : takeUntil stops (c :: l) = ([], c :: l) := by
  rw [takeUntil, if_pos h]

theorem takeUntil_cons_go (stops : List Char) (c : Char) (l : List Char)
    (h : stops.contains c = false) :
    takeUntil stops (c :: l) = (c :: (takeUntil stops l).1, (takeUntil stops l).2) := by
  rw [takeUntil, if_neg (by rw [h]; exact Bool.false_ne_true)]

set_option maxHeartbeats 1000000 in
/-- Parsing produces well-formed components. -/
theorem parse_wf (s : String) (u : JSURL) (h : parseAbs s = some u) : URLWF u := by
  unfold parseAbs at h
  dsimp only at h
  split at h
  case _ rest2 heq =>
    split at h
    · exact absurd h (by simp)
    split at h
    · exact absurd h (by simp)
    split at h
    · exact absurd h (by simp)
    split at h
    · exact absurd h (by simp)
    split at h
    · exact absurd h (by simp)
    next hs1 hs2 hs3 hauth hhost =>
      obtain rfl : _ = u := Option.some.inj h
      obtain ⟨hd2, hav2, hsh2⟩ := takeUntil_sound ['/', '?', '#'] rest2
      obtain ⟨hd3, hav3, hsh3⟩ :=
        takeUntil_sound [':'] (takeUntil ['/', '?', '#'] rest2).1
      obtain ⟨hd4, hav4, hsh4⟩ :=
        takeUntil_sound ['?', '#'] (takeUntil ['/', '?', '#'] rest2).2
      obtain ⟨hd5, hav5, hsh5⟩ :=
        takeUntil_sound ['#'] (takeUntil ['?', '#'] (takeUntil ['/', '?', '#'] rest2).2).2
      refine ⟨hs1, by simpa using hs2, ?_, hhost, ?_, ?_, ?_, ?_, ?_, ?_, ?_, ?_⟩
      · exact fun c hc => (List.all_eq_true.mp (by simpa using hs3)) c hc
      · intro c hc
        have hcm : c ∈ (takeUntil ['/', '?', '#'] rest2).1 := by
          rw [hd3]; exact List.mem_append_left _ hc
        have hnstops := hav2 c hcm
        have hncolon := hav3 c hc
        simp only [List.mem_cons, List.not_mem_nil, or_false, not_or] at hnstops hncolon
        exact ⟨hncolon, hnstops.1, hnstops.2.1, hnstops.2.2⟩
      · intro c hc
        have hcm : c ∈ (takeUntil ['/', '?', '#'] rest2).1 := by
          rw [hd3]; exact List.mem_append_right _ hc
        have hnstops := hav2 c hcm
        simp only [List.mem_cons, List.not_mem_nil, or_false, not_or] at hnstops
        exact ⟨hnstops.1, hnstops.2.1, hnstops.2.2⟩
      · rcases hsh3 with h3 | ⟨c, cs, hcs, hcmem⟩
        · exact Or.inl h3
        · simp only [List.mem_cons, List.not_mem_nil, or_false] at hcmem
          exact Or.inr ⟨cs, hcmem ▸ hcs⟩
      · dsimp only
        split
        · exact ⟨[], rfl⟩
        next hp4 =>
          rcases hsh2 with h2 | ⟨c, cs, hcs, hcmem⟩
          · rw [h2] at hp4
            exact absurd rfl hp4
          · simp only [List.mem_cons, List.not_mem_nil, or_false] at hcmem
            rcases hcmem with rfl | rfl | rfl
            · refine ⟨(takeUntil ['?', '#'] cs).1, ?_⟩
              rw [hcs, takeUntil_cons_go _ _ _ (by decide)]
            · rw [hcs, takeUntil_cons_stop _ _ _ (by decide)] at hp4
              exact absurd rfl hp4
            · rw [hcs, takeUntil_cons_stop _ _ _ (by decide)] at hp4
              exact absurd rfl hp4
      · intro c hc
        dsimp only at hc
        by_cases hp4 : (takeUntil ['?', '#'] (takeUntil ['/', '?', '#'] rest2).2).1 = []
        · rw [if_pos hp4] at hc
          simp only [show ("/" : String).data = ['/'] from rfl, List.mem_cons,
            List.not_mem_nil, or_false] at hc
          subst hc
          exact ⟨by decide, by decide⟩
        · rw [if_neg hp4] at hc
          have hthis := hav4 c hc
          simp only [List.mem_cons, List.not_mem_nil, or_false, not_or] at hthis
          exact hthis
      · rcases hsh4 with h4 | ⟨c, cs, hcs, hcmem⟩
        · rw [h4]
          left
          rfl
        · simp only [List.mem_cons, List.not_mem_nil, or_false] at hcmem
          rcases hcmem with rfl | rfl
          · rw [hcs, takeUntil_cons_go _ _ _ (by decide)]
            exact Or.inr ⟨_, rfl⟩
          · rw [hcs, takeUntil_cons_stop _ _ _ (by decide)]
            exact Or.inl rfl
      · intro c hc
        have hthis := hav5 c hc
        simpa using hthis
      · rcases hsh5 with h5 | ⟨c, cs, hcs, hcmem⟩
        · exact Or.inl h5
        · simp only [List.mem_cons, List.not_mem_nil, or_false] at hcmem
          exact Or.inr ⟨cs, hcmem ▸ hcs⟩
  case _ => exact absurd h (by simp)

theorem serialize_data (u : JSURL) : (serializeURL u).data =
    u.scheme.data ++ ':' :: '/' :: '/' ::
      (u.host.data ++ (u.port.data ++ (u.path.data ++ (u.search.data ++ u.hash.data)))) := by
  simp [serializeURL, show ∀ a b : String, (a ++ b).data = a.data ++ b.data from fun _ _ => rfl,
    List.append_assoc]

set_option maxHeartbeats 1000000 in
/-- A well-formed URL's serialization parses back to the same record. -/
theorem parse_serialize (u : JSURL) (wf : URLWF u) : parseAbs (serializeURL u) = some u := by
  obtain ⟨sc, ho, po, pa, se, ha⟩ := u
  unfold parseAbs
  rw [serialize_data]
  dsimp only at wf ⊢
  have hp1 : takeUntil [':']
      (sc.data ++ ':' :: '/' :: '/' ::
        (ho.data ++ (po.data ++ (pa.data ++ (se.data ++ ha.data))))) =
      (sc.data, ':' :: '/' :: '/' ::
        (ho.data ++ (po.data ++ (pa.data ++ (se.data ++ ha.data))))) :=
    takeUntil_recon _ _ _
      (fun c hc => by
        simpa using isSchemeChar_ne_colon c (wf.scheme_chars c hc))
      (Or.inr ⟨':', _, rfl, by decide⟩)
  rw [hp1]
  split
  case _ rest3 heq3 =>
    obtain rfl : ho.data ++ (po.data ++ (pa.data ++ (se.data ++ ha.data))) = rest3 := by
      simpa using heq3
    have hassoc : ho.data ++ (po.data ++ (pa.data ++ (se.data ++ ha.data))) =
        (ho.data ++ po.data) ++ (pa.data ++ (se.data ++ ha.data)) := by
      rw [List.append_assoc]
    rw [hassoc]
    obtain ⟨pcs, hpa⟩ := wf.path_shape
    have hp2 : takeUntil ['/', '?', '#']
        ((ho.data ++ po.data) ++ (pa.data ++ (se.data ++ ha.data))) =
        ((ho.data ++ po.data), pa.data ++ (se.data ++ ha.data)) :=
      takeUntil_recon _ _ _
        (fun c hc => by
          rcases List.mem_append.mp hc with h | h
          · have hhc := wf.host_chars c h
            simp only [List.mem_cons, List.not_mem_nil, or_false, not_or]
            exact ⟨hhc.2.1, hhc.2.2.1, hhc.2.2.2⟩
          · have hpc := wf.port_chars c h
            simp only [List.mem_cons, List.not_mem_nil, or_false, not_or]
            exact hpc)
        (Or.inr ⟨'/', _, by rw [hpa, List.cons_append], by decide⟩)
    rw [hp2]
    dsimp only
    have hp3 : takeUntil [':'] (ho.data ++ po.data) = (ho.data, po.data) :=
      takeUntil_recon _ _ _
        (fun c hc => by simpa using (wf.host_chars c hc).1)
        (by
          rcases wf.port_shape with h | ⟨cs, hcs⟩
          · exact Or.inl h
          · exact Or.inr ⟨':', cs, hcs, by decide⟩)
    rw [hp3]
    dsimp only
    have hp4 : takeUntil ['?', '#'] (pa.data ++ (se.data ++ ha.data)) =
        (pa.data, se.data ++ ha.data) :=
      takeUntil_recon _ _ _
        (fun c hc => by
          have hpc := wf.path_chars c hc
          simp only [List.mem_cons, List.not_mem_nil, or_false, not_or]
          exact hpc)
        (by
          rcases wf.search_shape with hse | ⟨cs, hcs⟩
          · rcases wf.hash_shape with hha | ⟨cs2, hcs2⟩
            · rw [hse, hha]; exact Or.inl rfl
            · rw [hse, hcs2]; exact Or.inr ⟨'#', cs2, rfl, by decide⟩
          · rw [hcs, List.cons_append]; exact Or.inr ⟨'?', _, rfl, by decide⟩)
    rw [hp4]
    dsimp only
    have hp5 : takeUntil ['#'] (se.data ++ ha.data) = (se.data, ha.data) :=
      takeUntil_recon _ _ _
        (fun c hc => by simpa using wf.search_chars c hc)
        (by
          rcases wf.hash_shape with h | ⟨cs, hcs⟩
          · exact Or.inl h
          · exact Or.inr ⟨'#', cs, hcs, by decide⟩)
    rw [hp5]
    dsimp only
    rw [if_neg wf.scheme_ne]
    rw [if_neg (by simpa using wf.scheme_alpha)]
    rw [if_neg (by
      simp only [not_not, List.all_eq_true]
      exact fun c hc => wf.scheme_chars c hc)]
    rw [if_neg (by
      intro hcon
      rcases List.append_eq_nil.mp hcon with ⟨h1, -⟩
      exact wf.host_ne h1)]
    rw [if_neg wf.host_ne]
    rw [if_neg (by rw [hpa]; exact List.cons_ne_nil _ _)]
  case _ hcon => exact ((hcon _) rfl).elim

/-! ### Query-string round trip (C7 machinery) -/

theorem data_inj (s t : String) (h : s.data = t.data) : s = t := by
  cases s; cases t; exact congrArg String.mk h

theorem splitOnCharAux_no_sep (sep : Char) :
    ∀ (l acc : List Char), sep ∉ acc →
      ∀ p ∈ splitOnCharAux sep l acc, sep ∉ p := by
  intro l
  induction l with
  | nil =>
    intro acc hacc p hp
    simp only [splitOnCharAux, List.mem_singleton] at hp
    subst hp
    simpa using hacc
  | cons c cs ih =>
    intro acc hacc p hp
    rw [splitOnCharAux] at hp
    by_cases hc : (c == sep) = true
    · rw [if_pos hc] at hp
      rcases List.mem_cons.mp hp with rfl | hp2
      · simpa using hacc
      · exact ih [] (by simp) p hp2
    · rw [if_neg hc] at hp
      refine ih (c :: acc) ?_ p hp
      intro hm
      rcases List.mem_cons.mp hm with h1 | h1
      · exact hc (by rw [h1]; exact beq_self_eq_true _)
      · exact hacc h1

theorem splitOnCharAux_subset (sep : Char) :
    ∀ (l acc : List Char), ∀ p ∈ splitOnCharAux sep l acc, ∀ c ∈ p, c ∈ acc ∨ c ∈ l := by
  intro l
  induction l with
  | nil =>
    intro acc p hp c hc
    simp only [splitOnCharAux, List.mem_singleton] at hp
    subst hp
    exact Or.inl (List.mem_reverse.mp hc)
  | cons x xs ih =>
    intro acc p hp c hc
    rw [splitOnCharAux] at hp
    by_cases hx : (x == sep) = true
    · rw [if_pos hx] at hp
      rcases List.mem_cons.mp hp with rfl | hp2
      · exact Or.inl (List.mem_reverse.mp hc)
      · rcases ih [] p hp2 c hc with h | h
        · exact absurd h (List.not_mem_nil c)
        · exact Or.inr (List.mem_cons_of_mem x h)
    · rw [if_neg hx] at hp
      rcases ih (x :: acc) p hp c hc with h | h
      · rcases List.mem_cons.mp h with rfl | h2
        · exact Or.inr (List.mem_cons_self _ _)
        · exact Or.inl h2
      · exact Or.inr (List.mem_cons_of_mem x h)

theorem splitOnCharAux_seg (sep : Char) :
    ∀ (a acc : List Char), sep ∉ a →
      splitOnCharAux sep a acc = [acc.reverse ++ a] := by
  intro a
  induction a with
  | nil => intro acc _; simp [splitOnCharAux]
  | cons c cs ih =>
    intro acc ha
    have hc : (c == sep) = false := by
      rw [beq_eq_false_iff_ne]
      intro h
      exact ha (by rw [← h]; exact List.mem_cons_self _ _)
    rw [splitOnCharAux, if_neg (by rw [hc]; exact Bool.false_ne_true)]
    rw [ih (c :: acc) (fun hm => ha (List.mem_cons_of_mem _ hm))]
    simp

theorem splitOnCharAux_seg_cons (sep : Char) :
    ∀ (a acc rest : List Char), sep ∉ a →
      splitOnCharAux sep (a ++ sep :: rest) acc =
        (acc.reverse ++ a) :: splitOnChar sep rest := by
  intro a
  induction a with
  | nil =>
    intro acc rest _
    rw [List.nil_append, splitOnCharAux, if_pos (beq_self_eq_true sep)]
    simp [splitOnChar]
  | cons c cs ih =>
    intro acc rest ha
    have hc : (c == sep) = false := by
      rw [beq_eq_false_iff_ne]
      intro h
      exact ha (by rw [← h]; exact List.mem_cons_self _ _)
    rw [List.cons_append, splitOnCharAux, if_neg (by rw [hc]; exact Bool.false_ne_true)]
    rw [ih (c :: acc) rest (fun hm => ha (List.mem_cons_of_mem _ hm))]
    simp

theorem joinPairs_one (kv : List Char × List Char) :
    joinPairs [kv] = kv.1 ++ '=' :: kv.2 := rfl

theorem joinPairs_cons2 (kv b : List Char × List Char) (l : List (List Char × List Char)) :
    joinPairs (kv :: b :: l) = kv.1 ++ '=' :: kv.2 ++ '&' :: joinPairs (b :: l) := rfl

theorem joinPairs_cons_ne (kv : List Char × List Char) (L : List (List Char × List Char))
    (h : L ≠ []) :
    joinPairs (kv :: L) = kv.1 ++ '=' :: kv.2 ++ '&' :: joinPairs L := by
  cases L with
  | nil => exact absurd rfl h
  | cons b bs => exact joinPairs_cons2 kv b bs

theorem joinPairs_ne_nil (l : List (List Char × List Char)) (h : l ≠ []) :
    joinPairs l ≠ [] := by
  cases l with
  | nil => exact absurd rfl h
  | cons kv tail =>
    cases tail with
    | nil =>
      rw [joinPairs_one]
      exact List.append_ne_nil_of_right_ne_nil _ (List.cons_ne_nil _ _)
    | cons b bs =>
      rw [joinPairs_cons2]
      exact List.append_ne_nil_of_right_ne_nil _ (List.cons_ne_nil _ _)

theorem joinPairs_chars (l : List (List Char × List Char)) :
    ∀ c ∈ joinPairs l, c = '=' ∨ c = '&' ∨ ∃ kv ∈ l, c ∈ kv.1 ∨ c ∈ kv.2 := by
  induction l with
  | nil => intro c hc; simp [joinPairs] at hc
  | cons kv tail ih =>
    intro c hc
    cases tail with
    | nil =>
      rw [joinPairs_one] at hc
      rcases List.mem_append.mp hc with h | h
      · exact Or.inr (Or.inr ⟨kv, by simp, Or.inl h⟩)
      · rcases List.mem_cons.mp h with rfl | h2
        · exact Or.inl rfl
        · exact Or.inr (Or.inr ⟨kv, by simp, Or.inr h2⟩)
    | cons b rest =>
      rw [joinPairs_cons2] at hc
      rcases List.mem_append.mp hc with h | h
      · rcases List.mem_append.mp h with h1 | h1
        · exact Or.inr (Or.inr ⟨kv, by simp, Or.inl h1⟩)
        · rcases List.mem_cons.mp h1 with rfl | h2
          · exact Or.inl rfl
          · exact Or.inr (Or.inr ⟨kv, by simp, Or.inr h2⟩)
      · rcases List.mem_cons.mp h with rfl | h4
        · exact Or.inr (Or.inl rfl)
        · rcases ih c h4 with h5 | h5 | ⟨kv2, hkv2, h5⟩
          · exact Or.inl h5
          · exact Or.inr (Or.inl h5)
          · exact Or.inr (Or.inr ⟨kv2, List.mem_cons_of_mem _ hkv2, h5⟩)

theorem splitOnChar_no_sep (sep : Char) (a : List Char) (ha : sep ∉ a) :
    splitOnChar sep a = [a] := by
  rw [splitOnChar, splitOnCharAux_seg sep a [] ha]
  simp

theorem splitOnChar_seg_cons (sep : Char) (a rest : List Char) (ha : sep ∉ a) :
    splitOnChar sep (a ++ sep :: rest) = a :: splitOnChar sep rest := by
  rw [splitOnChar, splitOnCharAux_seg_cons sep a [] rest ha]
  simp

theorem pairChunk_ne_nil (k v : List Char) : k ++ '=' :: v ≠ [] :=
  List.append_ne_nil_of_right_ne_nil _ (List.cons_ne_nil _ _)

theorem no_amp_chunk (k v : List Char) (hk : '&' ∉ k) (hv : '&' ∉ v) :
    '&' ∉ k ++ '=' :: v := by
  intro hm
  rcases List.mem_append.mp hm with h | h
  · exact hk h
  · rcases List.mem_cons.mp h with h2 | h2
    · exact absurd h2 (by decide)
    · exact hv h2

theorem parsePairs_single (k v : List Char) (hk1 : '&' ∉ k) (hk2 : '=' ∉ k)
    (hv : '&' ∉ v) : parsePairs (k ++ '=' :: v) = [(k, v)] := by
  unfold parsePairs
  rw [splitOnChar_no_sep '&' _ (no_amp_chunk k v hk1 hv)]
  rw [List.filter_eq_self.mpr (fun a ha => by
    rw [List.mem_singleton.mp ha]
    exact decide_eq_true (pairChunk_ne_nil k v))]
  rw [List.map_cons, List.map_nil]
  congr 1
  dsimp only
  rw [takeUntil_recon ['='] k ('=' :: v)
    (fun c hc => by
      simp only [List.mem_singleton]
      intro h
      rw [h] at hc
      exact hk2 hc) (Or.inr ⟨'=', v, rfl, by decide⟩)]

theorem parsePairs_append_piece (k v r : List Char) (hk1 : '&' ∉ k) (hk2 : '=' ∉ k)
    (hv : '&' ∉ v) :
    parsePairs ((k ++ '=' :: v) ++ '&' :: r) = (k, v) :: parsePairs r := by
  unfold parsePairs
  rw [splitOnChar_seg_cons '&' _ r (no_amp_chunk k v hk1 hv)]
  rw [List.filter_cons_of_pos (by exact decide_eq_true (pairChunk_ne_nil k v))]
  rw [List.map_cons]
  congr 1
  dsimp only
  rw [takeUntil_recon ['='] k ('=' :: v)
    (fun c hc => by
      simp only [List.mem_singleton]
      intro h
      rw [h] at hc
      exact hk2 hc) (Or.inr ⟨'=', v, rfl, by decide⟩)]

theorem parsePairs_joinPairs (l : List (List Char × List Char))
    (hwf : ∀ kv ∈ l, '&' ∉ kv.1 ∧ '=' ∉ kv.1 ∧ '&' ∉ kv.2) :
    parsePairs (joinPairs l) = l := by
  induction l with
  | nil => rfl
  | cons kv tail ih =>
    have hkv := hwf kv (List.mem_cons_self _ _)
    cases tail with
    | nil => rw [joinPairs_one, parsePairs_single kv.1 kv.2 hkv.1 hkv.2.1 hkv.2.2]
    | cons b rest =>
      rw [joinPairs_cons2,
        parsePairs_append_piece kv.1 kv.2 _ hkv.1 hkv.2.1 hkv.2.2,
        ih (fun kv2 h2 => hwf kv2 (List.mem_cons_of_mem _ h2))]

theorem parsePairs_wf (s : List Char) :
    ∀ kv ∈ parsePairs s, '&' ∉ kv.1 ∧ '=' ∉ kv.1 ∧ '&' ∉ kv.2 := by
  intro kv hkv
  unfold parsePairs at hkv
  rcases List.mem_map.mp hkv with ⟨piece, hpiece, hkveq⟩
  have hp0 : piece ∈ splitOnChar '&' s := (List.mem_filter.mp hpiece).1
  have hamp : '&' ∉ piece := splitOnCharAux_no_sep '&' s [] (by simp) piece hp0
  have hdec := takeUntil_sound ['='] piece
  have hsub1 : ∀ c ∈ (takeUntil ['='] piece).1, c ∈ piece := by
    intro c hc
    rw [hdec.1]
    exact List.mem_append_left _ hc
  have hsub2 : ∀ c ∈ (takeUntil ['='] piece).2, c ∈ piece := by
    intro c hc
    rw [hdec.1]
    exact List.mem_append_right _ hc
  have h1 : '&' ∉ (takeUntil ['='] piece).1 := fun hm => hamp (hsub1 _ hm)
  have h2 : '=' ∉ (takeUntil ['='] piece).1 := fun hm => by
    have := hdec.2.1 _ hm
    simp at this
  dsimp only at hkveq
  split at hkveq
  case _ x v heq =>
    rw [← hkveq]
    refine ⟨h1, h2, ?_⟩
    intro hm
    exact hamp (hsub2 '&' (by rw [heq]; exact List.mem_cons_of_mem _ hm))
  case _ heq =>
    rw [← hkveq]
    exact ⟨h1, h2, by simp⟩

theorem parsePairs_chars (s : List Char) :
    ∀ kv ∈ parsePairs s, ∀ c, (c ∈ kv.1 ∨ c ∈ kv.2) → c ∈ s := by
  intro kv hkv c hc
  unfold parsePairs at hkv
  rcases List.mem_map.mp hkv with ⟨piece, hpiece, hkveq⟩
  have hp0 : piece ∈ splitOnChar '&' s := (List.mem_filter.mp hpiece).1
  have hps : ∀ x ∈ piece, x ∈ s := by
    intro x hx
    rcases splitOnCharAux_subset '&' s [] piece hp0 x hx with h | h
    · exact absurd h (List.not_mem_nil x)
    · exact h
  have hdec := takeUntil_sound ['='] piece
  have hsub1 : ∀ x ∈ (takeUntil ['='] piece).1, x ∈ piece := by
    intro x hx
    rw [hdec.1]
    exact List.mem_append_left _ hx
  have hsub2 : ∀ x ∈ (takeUntil ['='] piece).2, x ∈ piece := by
    intro x hx
    rw [hdec.1]
    exact List.mem_append_right _ hx
  dsimp only at hkveq
  split at hkveq
  case _ x v heq =>
    rw [← hkveq] at hc
    rcases hc with h | h
    · exact hps c (hsub1 c h)
    · exact hps c (hsub2 c (by rw [heq]; exact List.mem_cons_of_mem _ h))
  case _ heq =>
    rw [← hkveq] at hc
    rcases hc with h | h
    · exact hps c (hsub1 c h)
    · exact absurd h (List.not_mem_nil c)

theorem dropLeadQM_cases (s : List Char) : dropLeadQM s = s ∨ s = '?' :: dropLeadQM s := by
  unfold dropLeadQM
  split
  · exact Or.inr rfl
  · exact Or.inl rfl

theorem dropLeadQM_subset (s : List Char) (c : Char) (hc : c ∈ dropLeadQM s) : c ∈ s := by
  rcases dropLeadQM_cases s with h | h
  · rwa [h] at hc
  · rw [h]
    exact List.mem_cons_of_mem _ hc

theorem joinPairs_getLast (l : List (List Char × List Char)) (k v : List Char) :
    (joinPairs (l ++ [(k, v)])).getLast? = ('=' :: v).getLast? := by
  induction l with
  | nil =>
    rw [List.nil_append, joinPairs_one]
    exact List.getLast?_append_of_ne_nil _ (List.cons_ne_nil _ _)
  | cons kv tail ih =>
    rw [List.cons_append,
      joinPairs_cons_ne kv _ (List.append_ne_nil_of_right_ne_nil _ (List.cons_ne_nil _ _))]
    have hJ : joinPairs (tail ++ [(k, v)]) ≠ [] :=
      joinPairs_ne_nil _ (List.append_ne_nil_of_right_ne_nil _ (List.cons_ne_nil _ _))
    rw [List.getLast?_append_of_ne_nil _ (List.cons_ne_nil '&' _)]
    rw [show ('&' :: joinPairs (tail ++ [(k, v)])) = ['&'] ++ joinPairs (tail ++ [(k, v)])
      from rfl]
    rw [List.getLast?_append_of_ne_nil _ hJ]
    exact ih

theorem joinPairs_dropLast (l : List (List Char × List Char)) (k v : List Char)
    (hv : v ≠ []) :
    (joinPairs (l ++ [(k, v)])).dropLast = joinPairs (l ++ [(k, v.dropLast)]) := by
  induction l with
  | nil =>
    rw [List.nil_append, List.nil_append, joinPairs_one, joinPairs_one]
    rw [List.dropLast_append_of_ne_nil _ (List.cons_ne_nil _ _)]
    rw [List.dropLast_cons_of_ne_nil hv]
  | cons kv tail ih =>
    rw [List.cons_append, List.cons_append,
      joinPairs_cons_ne kv _ (List.append_ne_nil_of_right_ne_nil _ (List.cons_ne_nil _ _)),
      joinPairs_cons_ne kv _ (List.append_ne_nil_of_right_ne_nil _ (List.cons_ne_nil _ _))]
    have hJ : joinPairs (tail ++ [(k, v)]) ≠ [] :=
      joinPairs_ne_nil _ (List.append_ne_nil_of_right_ne_nil _ (List.cons_ne_nil _ _))
    rw [show (kv.1 ++ '=' :: kv.2) ++ '&' :: joinPairs (tail ++ [(k, v)]) =
        ((kv.1 ++ '=' :: kv.2) ++ ['&']) ++ joinPairs (tail ++ [(k, v)]) by simp]
    rw [show (kv.1 ++ '=' :: kv.2) ++ '&' :: joinPairs (tail ++ [(k, v.dropLast)]) =
        ((kv.1 ++ '=' :: kv.2) ++ ['&']) ++ joinPairs (tail ++ [(k, v.dropLast)]) by simp]
    rw [List.dropLast_append_of_ne_nil _ hJ, ih]

theorem dropLeadQM_qm (t : List Char) : dropLeadQM ('?' :: t) = t := rfl

theorem searchTransform_nil (cfg : NormConfig) : searchTransform cfg [] = [] := by
  unfold searchTransform
  by_cases h1 : cfg.stripAllQueries
  · rw [if_pos h1]
  · rw [if_neg h1]
    by_cases h2 : cfg.keepQueryParams ≠ []
    · rw [if_pos h2]
      rfl
    · rw [if_neg h2]

theorem searchTransform_shape (cfg : NormConfig) (s : List Char)
    (hs : s = [] ∨ ∃ cs, s = '?' :: cs) (hc : ∀ c ∈ s, c ≠ '#') :
    (searchTransform cfg s = [] ∨ ∃ cs, searchTransform cfg s = '?' :: cs) ∧
    (∀ c ∈ searchTransform cfg s, c ≠ '#') := by
  unfold searchTransform
  by_cases h1 : cfg.stripAllQueries
  · rw [if_pos h1]
    exact ⟨Or.inl rfl, by simp⟩
  · rw [if_neg h1]
    by_cases h2 : cfg.keepQueryParams ≠ []
    · rw [if_pos h2]
      dsimp only
      by_cases h3 : joinPairs (List.filter
          (fun kv => cfg.keepQueryParams.contains (String.mk kv.1))
          (parsePairs (dropLeadQM s))) = []
      · rw [if_pos h3]
        exact ⟨Or.inl rfl, by simp⟩
      · rw [if_neg h3]
        refine ⟨Or.inr ⟨_, rfl⟩, ?_⟩
        intro c hcm
        rcases List.mem_cons.mp hcm with rfl | hm
        · decide
        · rcases joinPairs_chars _ c hm with rfl | rfl | ⟨kv, hkv, hcc⟩
          · decide
          · decide
          · have hkv2 : kv ∈ parsePairs (dropLeadQM s) := (List.mem_filter.mp hkv).1
            exact hc c (dropLeadQM_subset s c (parsePairs_chars _ kv hkv2 c hcc))
    · rw [if_neg h2]
      exact ⟨hs, hc⟩

theorem searchTransform_fix (cfg : NormConfig) (s r : List Char)
    (hr : r = searchTransform cfg s ∨
      ∃ t, searchTransform cfg s = '?' :: t ∧ t.getLast? = some '/' ∧
        r = '?' :: t.dropLast) :
    searchTransform cfg r = r := by
  by_cases h1 : cfg.stripAllQueries
  · have hST : searchTransform cfg s = [] := by
      unfold searchTransform
      rw [if_pos h1]
    rcases hr with hr1 | ⟨t, hSTt, _, _⟩
    · rw [hST] at hr1
      subst hr1
      exact searchTransform_nil cfg
    · rw [hST] at hSTt
      exact absurd hSTt.symm (List.cons_ne_nil _ _)
  · by_cases h2 : cfg.keepQueryParams ≠ []
    · have hSTQ : ∀ (L : List (List Char × List Char)),
          (∀ kv ∈ L, '&' ∉ kv.1 ∧ '=' ∉ kv.1 ∧ '&' ∉ kv.2) →
          (∀ kv ∈ L, cfg.keepQueryParams.contains (String.mk kv.1) = true) →
          L ≠ [] →
          searchTransform cfg ('?' :: joinPairs L) = '?' :: joinPairs L := by
        intro L hwf hpred hne
        unfold searchTransform
        rw [if_neg h1, if_pos h2]
        dsimp only
        rw [dropLeadQM_qm, parsePairs_joinPairs L hwf,
          List.filter_eq_self.mpr hpred, if_neg (joinPairs_ne_nil L hne)]
      have hST : searchTransform cfg s =
          (if joinPairs (List.filter
              (fun kv => cfg.keepQueryParams.contains (String.mk kv.1))
              (parsePairs (dropLeadQM s))) = [] then []
           else '?' :: joinPairs (List.filter
              (fun kv => cfg.keepQueryParams.contains (String.mk kv.1))
              (parsePairs (dropLeadQM s)))) := by
        unfold searchTransform
        rw [if_neg h1, if_pos h2]
      have hwfk : ∀ kv ∈ List.filter
          (fun kv => cfg.keepQueryParams.contains (String.mk kv.1))
          (parsePairs (dropLeadQM s)), '&' ∉ kv.1 ∧ '=' ∉ kv.1 ∧ '&' ∉ kv.2 :=
        fun kv hkv => parsePairs_wf _ kv (List.mem_filter.mp hkv).1
      have hpredk : ∀ kv ∈ List.filter
          (fun kv => cfg.keepQueryParams.contains (String.mk kv.1))
          (parsePairs (dropLeadQM s)),
          cfg.keepQueryParams.contains (String.mk kv.1) = true :=
        fun kv hkv => (List.mem_filter.mp hkv).2
      by_cases h3 : joinPairs (List.filter
          (fun kv => cfg.keepQueryParams.contains (String.mk kv.1))
          (parsePairs (dropLeadQM s))) = []
      · rw [if_pos h3] at hST
        rcases hr with hr1 | ⟨t, hSTt, _, _⟩
        · rw [hST] at hr1
          subst hr1
          exact searchTransform_nil cfg
        · rw [hST] at hSTt
          exact absurd hSTt.symm (List.cons_ne_nil _ _)
      · rw [if_neg h3] at hST
        have hkne : List.filter
            (fun kv => cfg.keepQueryParams.contains (String.mk kv.1))
            (parsePairs (dropLeadQM s)) ≠ [] := by
          intro hk
          rw [hk] at h3
          exact h3 rfl
        rcases hr with hr1 | ⟨t, hSTt, hlast, hrt⟩
        · rw [hST] at hr1
          subst hr1
          exact hSTQ _ hwfk hpredk hkne
        · rw [hST] at hSTt
          have ht : t = joinPairs (List.filter
              (fun kv => cfg.keepQueryParams.contains (String.mk kv.1))
              (parsePairs (dropLeadQM s))) := (List.cons.injEq _ _ _ _).mp hSTt.symm |>.2
          set kept := List.filter
            (fun kv => cfg.keepQueryParams.contains (String.mk kv.1))
            (parsePairs (dropLeadQM s)) with hkept
          have hsplit : kept.dropLast ++ [kept.getLast hkne] = kept :=
            List.dropLast_append_getLast hkne
          have hlast2 : (joinPairs (kept.dropLast ++
              [((kept.getLast hkne).1, (kept.getLast hkne).2)])).getLast? = some '/' := by
            rw [show ((kept.getLast hkne).1, (kept.getLast hkne).2) = kept.getLast hkne
              from rfl, hsplit, ← ht]
            exact hlast
          rw [joinPairs_getLast] at hlast2
          have hv : (kept.getLast hkne).2 ≠ [] := by
            intro hv0
            rw [hv0] at hlast2
            simp only [List.getLast?_singleton] at hlast2
            exact absurd hlast2 (by decide)
          have hdl : t.dropLast = joinPairs (kept.dropLast ++
              [((kept.getLast hkne).1, (kept.getLast hkne).2.dropLast)]) := by
            have h0 := joinPairs_dropLast kept.dropLast
              (kept.getLast hkne).1 (kept.getLast hkne).2 hv
            rw [show ((kept.getLast hkne).1, (kept.getLast hkne).2) = kept.getLast hkne
              from rfl] at h0
            rw [hsplit] at h0
            rw [ht]
            exact h0
          have hmemk : ∀ kv ∈ kept.dropLast ++
              [((kept.getLast hkne).1, (kept.getLast hkne).2.dropLast)],
              ('&' ∉ kv.1 ∧ '=' ∉ kv.1 ∧ '&' ∉ kv.2) ∧
                cfg.keepQueryParams.contains (String.mk kv.1) = true := by
            intro kv hkv
            rcases List.mem_append.mp hkv with h | h
            · have hk2 : kv ∈ kept := (List.dropLast_sublist kept).subset h
              exact ⟨hwfk kv hk2, hpredk kv hk2⟩
            · have hg : kept.getLast hkne ∈ kept := List.getLast_mem hkne
              have hw := hwfk _ hg
              have hp := hpredk _ hg
              rw [List.mem_singleton.mp h]
              refine ⟨⟨hw.1, hw.2.1, ?_⟩, hp⟩
              intro hm
              exact hw.2.2 ((List.dropLast_sublist _).subset hm)
          rw [hrt, hdl]
          exact hSTQ _ (fun kv h => (hmemk kv h).1) (fun kv h => (hmemk kv h).2)
            (List.append_ne_nil_of_right_ne_nil _ (List.cons_ne_nil _ _))
    · have hid : ∀ x, searchTransform cfg x = x := by
        intro x
        unfold searchTransform
        rw [if_neg h1, if_neg h2]
      rcases hr with hr1 | ⟨t, hSTt, _, hrt⟩
      · rw [hr1, hid s, hid]  
      · exact hid r

theorem wf_finalize (cfg : NormConfig) (u : JSURL) (wf : URLWF u) :
    URLWF { u with hash := "", search := String.mk (searchTransform cfg u.search.data) } := by
  have hsh := searchTransform_shape cfg u.search.data wf.search_shape wf.search_chars
  exact {
    scheme_ne := wf.scheme_ne
    scheme_alpha := wf.scheme_alpha
    scheme_chars := wf.scheme_chars
    host_ne := wf.host_ne
    host_chars := wf.host_chars
    port_chars := wf.port_chars
    port_shape := wf.port_shape
    path_shape := wf.path_shape
    path_chars := wf.path_chars
    search_shape := hsh.1
    search_chars := hsh.2
    hash_shape := Or.inl rfl }

theorem endsSlash_iff (s : String) : endsSlash s = true ↔ s.data.getLast? = some '/' := by
  unfold endsSlash
  cases h : s.data.getLast? with
  | none => simp
  | some c => simp [beq_iff_eq]

theorem normalize_of_parse (cfg : NormConfig) (n rootHost : String) (u2 : JSURL)
    (hp : parseAbs n = some u2)
    (hsch : schemeIsHTTP u2.scheme = true)
    (hhost : (cfg.sameHostOnly && ! hostAccepted cfg u2.host rootHost) = false)
    (hfin : finalOf cfg u2 = n)
    (hallow : cfg.allowRx.elim true (fun f => f n) = true)
    (hdeny : cfg.denyRx.elim false (fun f => f n) = false) :
    normalizeURL cfg n rootHost = some n := by
  unfold normalizeURL
  rw [hp]
  dsimp only
  rw [if_neg (not_not_intro hsch)]
  rw [if_neg (by rw [hhost]; exact Bool.false_ne_true)]
  rw [hfin]
  rw [if_neg (by rw [hallow]; exact fun hc => Bool.false_ne_true hc.symm)]
  rw [if_neg (by rw [hdeny]; exact Bool.false_ne_true)]

theorem getLast_cons_ne {α : Type} (a : α) (cs : List α) (h : cs ≠ []) :
    (a :: cs).getLast? = cs.getLast? :=
  List.getLast?_append_of_ne_nil [a] h

theorem finalOf_eq (cfg : NormConfig) (u : JSURL) :
    finalOf cfg u =
      (if (decide (u.path ≠ "/") &&
          endsSlash (serializeURL
            { u with hash := "", search := String.mk (searchTransform cfg u.search.data) }))
          = true
       then dropLastChar (serializeURL
            { u with hash := "", search := String.mk (searchTransform cfg u.search.data) })
       else serializeURL
            { u with hash := "", search := String.mk (searchTransform cfg u.search.data) }) :=
  rfl

theorem finalOf_of_fixed (cfg : NormConfig) (u2 : JSURL)
    (hhash : u2.hash = "")
    (hsearch : searchTransform cfg u2.search.data = u2.search.data)
    (hnoslice : (decide (u2.path ≠ "/") && endsSlash (serializeURL u2)) = false) :
    finalOf cfg u2 = serializeURL u2 := by
  have hrec : ({ u2 with hash := "", search := String.mk (searchTransform cfg u2.search.data) } : JSURL) = u2 := by
    rw [hsearch, mk_data, ← hhash]
  rw [finalOf_eq, hrec, if_neg (by rw [hnoslice]; exact Bool.false_ne_true)]

theorem normalize_fixed (cfg : NormConfig) (rootHost n : String) (u2 : JSURL)
    (hpn : parseAbs n = some u2)
    (hser : serializeURL u2 = n)
    (hhash : u2.hash = "")
    (hsearch : searchTransform cfg u2.search.data = u2.search.data)
    (hnoslice : (decide (u2.path ≠ "/") && endsSlash n) = false)
    (hsch : schemeIsHTTP u2.scheme = true)
    (hhost : (cfg.sameHostOnly && ! hostAccepted cfg u2.host rootHost) = false)
    (hallow : cfg.allowRx.elim true (fun f => f n) = true)
    (hdeny : cfg.denyRx.elim false (fun f => f n) = false) :
    normalizeURL cfg n rootHost = some n := by
  refine normalize_of_parse cfg n rootHost u2 hpn hsch hhost ?_ hallow hdeny
  rw [finalOf_of_fixed cfg u2 hhash hsearch (by rw [hser]; exact hnoslice)]
  exact hser

theorem normalize_some_elim (cfg : NormConfig) (raw rootHost n : String)
    (h : normalizeURL cfg raw rootHost = some n) :
    ∃ u, parseAbs raw = some u ∧
      schemeIsHTTP u.scheme = true ∧
      (cfg.sameHostOnly && ! hostAccepted cfg u.host rootHost) = false ∧
      cfg.allowRx.elim true (fun f => f (finalOf cfg u)) = true ∧
      cfg.denyRx.elim false (fun f => f (finalOf cfg u)) = false ∧
      finalOf cfg u = n := by
  unfold normalizeURL at h
  cases hp : parseAbs raw with
  | none =>
    rw [hp] at h
    exact absurd h (by simp)
  | some u =>
    rw [hp] at h
    dsimp only at h
    refine ⟨u, rfl, ?_⟩
    rcases Bool.eq_false_or_eq_true (schemeIsHTTP u.scheme) with h1 | h1 <;>
      rcases Bool.eq_false_or_eq_true (cfg.sameHostOnly && ! hostAccepted cfg u.host rootHost)
        with h2 | h2 <;>
      rcases Bool.eq_false_or_eq_true (cfg.allowRx.elim true (fun f => f (finalOf cfg u)))
        with h3 | h3 <;>
      rcases Bool.eq_false_or_eq_true (cfg.denyRx.elim false (fun f => f (finalOf cfg u)))
        with h4 | h4 <;>
      simp_all

def cleanURL (cfg : NormConfig) (u : JSURL) : JSURL :=
  { u with hash := "", search := String.mk (searchTransform cfg u.search.data) }

theorem finalOf_eqC (cfg : NormConfig) (u : JSURL) :
    finalOf cfg u =
      (if (decide (u.path ≠ "/") && endsSlash (serializeURL (cleanURL cfg u))) = true
       then dropLastChar (serializeURL (cleanURL cfg u))
       else serializeURL (cleanURL cfg u)) :=
  rfl

/-- The record the second normalization run parses when the first run's
trailing-slash trim removed the final character of the (transformed) query. -/
def sliceQueryURL (cfg : NormConfig) (u : JSURL) : JSURL :=
  { cleanURL cfg u with search := String.mk (searchTransform cfg u.search.data).dropLast }

/-- The record the second normalization run parses when the first run's
trailing-slash trim removed the final character of the path. -/
def slicePathURL (cfg : NormConfig) (u : JSURL) : JSURL :=
  { cleanURL cfg u with path := String.mk u.path.data.dropLast }

set_option maxHeartbeats 1000000 in
/-- **C7** (amended).  `normalizeURL` is idempotent on its non-null outputs
except for the single-trailing-slash trim: whenever a normalized URL `n` does
not itself end in `/` (or its path is just `/`, where no trim applies),
normalizing `n` again returns `n` unchanged — the hash strip, the query
filtering and the slash trim are all fix-points on such outputs.  Without
that proviso idempotence fails (see the counterexample): an input with a
doubled trailing slash loses only one `/` per application. -/
theorem normalize_idempotent_off_trailing_slash (cfg : NormConfig) (raw rootHost n : String)
    (h : normalizeURL cfg raw rootHost = some n)
    (hn : endsSlash n = false ∨ ∃ v, parseAbs n = some v ∧ v.path = "/") :
    normalizeURL cfg n rootHost = some n := by
  rcases normalize_some_elim cfg raw rootHost n h with
    ⟨u, hp, hsch, hhost, hallow, hdeny, hfin⟩
  have wf := parse_wf raw u hp
  have wf1 : URLWF (cleanURL cfg u) := wf_finalize cfg u wf
  rw [hfin] at hallow hdeny
  rw [finalOf_eqC] at hfin
  rcases Bool.eq_false_or_eq_true
      (decide (u.path ≠ "/") && endsSlash (serializeURL (cleanURL cfg u))) with hsl | hsl
  · -- the slice fired on the first run
    rw [if_pos hsl] at hfin
    have hand := Bool.and_eq_true_iff.mp hsl
    have hpath : u.path ≠ "/" := of_decide_eq_true hand.1
    have hes : (serializeURL (cleanURL cfg u)).data.getLast? = some '/' :=
      (endsSlash_iff _).mp hand.2
    have hdata : (serializeURL (cleanURL cfg u)).data =
        (u.scheme.data ++ ':' :: '/' :: '/' :: (u.host.data ++ (u.port.data ++ u.path.data)))
          ++ searchTransform cfg u.search.data := by
      rw [serialize_data]
      show u.scheme.data ++ ':' :: '/' :: '/' :: (u.host.data ++ (u.port.data ++
        (u.path.data ++ (searchTransform cfg u.search.data ++ ("" : String).data)))) = _
      simp [List.append_assoc]
    rcases wf1.search_shape with hST0 | ⟨cs, hcs⟩
    · -- S2: empty (transformed) query, the slice ate a path character
      have hST0 : searchTransform cfg u.search.data = [] := hST0
      obtain ⟨pcs, hpa⟩ := wf.path_shape
      have hpane : u.path.data ≠ [] := by rw [hpa]; exact List.cons_ne_nil _ _
      have hpcs : pcs ≠ [] := by
        intro h0
        apply hpath
        apply data_inj
        rw [hpa, h0]
      have hpd : u.path.data.dropLast = '/' :: pcs.dropLast := by
        rw [hpa, List.dropLast_cons_of_ne_nil hpcs]
      have hdata2 : (serializeURL (cleanURL cfg u)).data =
          (u.scheme.data ++ ':' :: '/' :: '/' :: (u.host.data ++ u.port.data))
            ++ u.path.data := by
        rw [hdata, hST0]
        simp [List.append_assoc]
      have wf2 : URLWF (slicePathURL cfg u) := {
        scheme_ne := wf.scheme_ne
        scheme_alpha := wf.scheme_alpha
        scheme_chars := wf.scheme_chars
        host_ne := wf.host_ne
        host_chars := wf.host_chars
        port_chars := wf.port_chars
        port_shape := wf.port_shape
        path_shape := ⟨pcs.dropLast, hpd⟩
        path_chars := by
          intro c hc
          have hc2 : c ∈ u.path.data.dropLast := hc
          exact wf.path_chars c ((List.dropLast_sublist _).subset hc2)
        search_shape := wf1.search_shape
        search_chars := wf1.search_chars
        hash_shape := Or.inl rfl }
      have hdatau2 : (serializeURL (slicePathURL cfg u)).data =
          (u.scheme.data ++ ':' :: '/' :: '/' :: (u.host.data ++ u.port.data))
            ++ u.path.data.dropLast := by
        rw [serialize_data]
        show u.scheme.data ++ ':' :: '/' :: '/' :: (u.host.data ++ (u.port.data ++
          (u.path.data.dropLast ++ (searchTransform cfg u.search.data ++
            ("" : String).data)))) = _
        rw [hST0]
        simp [List.append_assoc]
      have hnd : n.data =
          (u.scheme.data ++ ':' :: '/' :: '/' :: (u.host.data ++ u.port.data))
            ++ u.path.data.dropLast := by
        rw [← hfin]
        show (serializeURL (cleanURL cfg u)).data.dropLast = _
        rw [hdata2, List.dropLast_append_of_ne_nil _ hpane]
      have hser : serializeURL (slicePathURL cfg u) = n :=
        data_inj _ _ (by rw [hdatau2, hnd])
      have hpn : parseAbs n = some (slicePathURL cfg u) := by
        rw [← hser]
        exact parse_serialize _ wf2
      have hnoslice : (decide ((slicePathURL cfg u).path ≠ "/") && endsSlash n) = false := by
        rcases hn with h0 | ⟨v, hv, hvp⟩
        · rw [h0]
          exact Bool.and_false _
        · rw [hpn] at hv
          rcases Option.some.inj hv with rfl
          rw [decide_eq_false (fun hc => hc hvp)]
          exact Bool.false_and _
      exact normalize_fixed cfg rootHost n _ hpn hser rfl
        (searchTransform_fix cfg u.search.data _ (Or.inl rfl)) hnoslice hsch hhost
        hallow hdeny
    · -- S1: the slice ate the last character of the transformed query
      have hcs : searchTransform cfg u.search.data = '?' :: cs := hcs
      have hSTne : searchTransform cfg u.search.data ≠ [] := by
        rw [hcs]
        exact List.cons_ne_nil _ _
      have hesST : (searchTransform cfg u.search.data).getLast? = some '/' := by
        rw [hdata, List.getLast?_append_of_ne_nil _ hSTne] at hes
        exact hes
      have hcsne : cs ≠ [] := by
        intro h0
        rw [hcs, h0] at hesST
        simp only [List.getLast?_singleton] at hesST
        exact absurd hesST (by decide)
      have hcsl : cs.getLast? = some '/' := by
        rw [hcs, getLast_cons_ne _ _ hcsne] at hesST
        exact hesST
      have hSTd : (searchTransform cfg u.search.data).dropLast = '?' :: cs.dropLast := by
        rw [hcs, List.dropLast_cons_of_ne_nil hcsne]
      have wf2 : URLWF (sliceQueryURL cfg u) := {
        scheme_ne := wf.scheme_ne
        scheme_alpha := wf.scheme_alpha
        scheme_chars := wf.scheme_chars
        host_ne := wf.host_ne
        host_chars := wf.host_chars
        port_chars := wf.port_chars
        port_shape := wf.port_shape
        path_shape := wf.path_shape
        path_chars := wf.path_chars
        search_shape := Or.inr ⟨cs.dropLast, hSTd⟩
        search_chars := by
          intro c hc
          have hc2 : c ∈ (searchTransform cfg u.search.data).dropLast := hc
          exact wf1.search_chars c ((List.dropLast_sublist _).subset hc2)
        hash_shape := Or.inl rfl }
      have hdatau2 : (serializeURL (sliceQueryURL cfg u)).data =
          (u.scheme.data ++ ':' :: '/' :: '/' :: (u.host.data ++ (u.port.data ++
            u.path.data))) ++ (searchTransform cfg u.search.data).dropLast := by
        rw [serialize_data]
        show u.scheme.data ++ ':' :: '/' :: '/' :: (u.host.data ++ (u.port.data ++
          (u.path.data ++ ((searchTransform cfg u.search.data).dropLast ++
            ("" : String).data)))) = _
        simp [List.append_assoc]
      have hnd : n.data =
          (u.scheme.data ++ ':' :: '/' :: '/' :: (u.host.data ++ (u.port.data ++
            u.path.data))) ++ (searchTransform cfg u.search.data).dropLast := by
        rw [← hfin]
        show (serializeURL (cleanURL cfg u)).data.dropLast = _
        rw [hdata, List.dropLast_append_of_ne_nil _ hSTne]
      have hser : serializeURL (sliceQueryURL cfg u) = n :=
        data_inj _ _ (by rw [hdatau2, hnd])
      have hpn : parseAbs n = some (sliceQueryURL cfg u) := by
        rw [← hser]
        exact parse_serialize _ wf2
      have hsearch2 : searchTransform cfg ((searchTransform cfg u.search.data).dropLast) =
          (searchTransform cfg u.search.data).dropLast := by
        have hfix := searchTransform_fix cfg u.search.data ('?' :: cs.dropLast)
          (Or.inr ⟨cs, hcs, hcsl, rfl⟩)
        rw [hSTd]
        exact hfix
      have hnoslice : (decide ((sliceQueryURL cfg u).path ≠ "/") && endsSlash n) = false := by
        rcases hn with h0 | ⟨v, hv, hvp⟩
        · rw [h0]
          exact Bool.and_false _
        · rw [hpn] at hv
          rcases Option.some.inj hv with rfl
          exact absurd hvp hpath
      exact normalize_fixed cfg rootHost n _ hpn hser rfl hsearch2 hnoslice hsch hhost
        hallow hdeny
  · -- no slice on the first run: the serialized cleaned URL is the output
    rw [if_neg (by rw [hsl]; exact Bool.false_ne_true)] at hfin
    have hpn : parseAbs n = some (cleanURL cfg u) := by
      rw [← hfin]
      exact parse_serialize _ wf1
    refine normalize_fixed cfg rootHost n (cleanURL cfg u) hpn hfin rfl
      (searchTransform_fix cfg u.search.data _ (Or.inl rfl)) ?_ hsch hhost hallow hdeny
    rw [← hfin]
    exact hsl

/-- **C7** (witness).  The amended idempotence applied to a concrete run:
`https://a.test/x/` normalizes to `https://a.test/x`, which no longer ends
in a slash, and renormalizing returns it unchanged. -/
theorem normalize_idempotent_off_trailing_slash_witness :
    normalizeURL {} "https://a.test/x/" "a.test" = some "https://a.test/x" ∧
    endsSlash "https://a.test/x" = false ∧
    normalizeURL {} "https://a.test/x" "a.test" = some "https://a.test/x" :=
  ⟨by decide, by decide,
    normalize_idempotent_off_trailing_slash {} "https://a.test/x/" "a.test"
      "https://a.test/x" (by decide) (Or.inl (by decide))⟩
